import Mathlib

/-!
# Verification of the trip-split ledger engine

A shallow embedding of the ledger computation core of `server.js`:
share allocation for an expense (`allocate`, covering both the explicit-shares
validation and the even split of `POST /api/trips/:id/expenses`), trip date
derivation (`deriveTripDates`), net-balance computation (`computeNetBalances`)
and the greedy settlement matrix (`computeDebtMatrix`).

Currency amounts are modelled as exact rationals (`ℚ`); the JavaScript source
computes with IEEE doubles, and the specification's epsilon tolerances (1e-6,
0.01) are carried over literally.  JavaScript objects keyed by participant id
are modelled as association lists in key-insertion order.
-/

namespace TripSplit

/-- A participant record: `{ id, name }`. -/
structure Participant where
  id : String
  name : String
  deriving DecidableEq

/-- One entry of an expense's `shares` array: `{ participant_id, amount }`. -/
structure Share where
  participant_id : String
  amount : ℚ
  deriving DecidableEq

/-- An expense record as stored in a trip. -/
structure Expense where
  id : String
  payer_id : String
  amount : ℚ
  description : String
  date : Option String
  shares : List Share
  deriving DecidableEq

/-- A transfer record as stored in a trip. -/
structure Transfer where
  id : String
  from_id : String
  to_id : String
  amount : ℚ
  date : Option String
  deriving DecidableEq

/-- A trip (ledger) record. -/
structure Trip where
  id : String
  name : String
  location : String
  start_date : Option String
  end_date : Option String
  participants : List Participant
  expenses : List Expense
  transfers : List Transfer
  deriving DecidableEq

/-! ## Expense share allocation (`POST /api/trips/:id/expenses`, lines 377-413) -/

/-- Validation errors of the share-allocation step.  They correspond, in
order, to the HTTP 400 responses `'Invalid participant in shares'`,
`'Invalid share amount'` and `'Sum of shares must equal total amount'`. -/
inductive AllocError where
  | unknownParticipant
  | negativeShare
  | shareSumMismatch
  deriving DecidableEq

/-- The per-entry checks of the explicit-shares loop (server.js lines
380-393): entries are scanned in order; for each entry the participant
lookup is checked first, then non-negativity of the amount.  The first
failing check determines the error. -/
def checkShares (pids : List String) : List (String × ℚ) → Option AllocError
  | [] => none
  | (pid, amt) :: rest =>
    if pid ∉ pids then some .unknownParticipant
    else if amt < 0 then some .negativeShare
    else checkShares pids rest

/-- Explicit-shares validation (server.js lines 378-398).  In the source the
running total is accumulated inside the same loop that performs the per-entry
checks, but it is only inspected after the loop finishes, so checking the sum
after a separate scan is observably identical. -/
def validateShares (pids : List String) (amount : ℚ)
    (body : List (String × ℚ)) : Except AllocError (List Share) :=
  match checkShares pids body with
  | some err => .error err
  | none =>
    if |(body.map (·.2)).sum - amount| > 1/100 then .error .shareSumMismatch
    else .ok (body.map fun e => { participant_id := e.1, amount := e.2 })

/-- `toFixed(2)` followed by `parseFloat` (server.js line 402): round to the
nearest hundredth, ties picking the larger value, exactly as specified for
`Number.prototype.toFixed`. -/
def round2 (q : ℚ) : ℚ := (⌊q * 100 + 1/2⌋ : ℤ) / 100

/-- The remainder-distribution loop of the even split (server.js lines
404-412): each participant in list order receives `equalShare`, plus one
extra hundredth while the running remainder is still above `0.001`. -/
def evenSplitGo (equalShare : ℚ) : List String → ℚ → List Share
  | [], _ => []
  | pid :: rest, remainder =>
    if remainder > 1/1000 then
      { participant_id := pid, amount := equalShare + 1/100 }
        :: evenSplitGo equalShare rest (remainder - 1/100)
    else
      { participant_id := pid, amount := equalShare }
        :: evenSplitGo equalShare rest remainder

/-- The even split (server.js lines 399-413).  With an empty participant list
the JavaScript intermediates are `Infinity`/`NaN`, but the loop body never
runs, so the observable result is the empty share list either way. -/
def evenSplit (amount : ℚ) (pids : List String) : List Share :=
  evenSplitGo (round2 (amount / (pids.length : ℚ))) pids
    (amount - round2 (amount / (pids.length : ℚ)) * (pids.length : ℚ))

/-- Share allocation for a new expense: the branch on
`Array.isArray(body.shares) && body.shares.length > 0` (server.js line 378). -/
def allocate (amount : ℚ) (pids : List String)
    (explicitShares : List (String × ℚ)) : Except AllocError (List Share) :=
  if explicitShares.length > 0 then validateShares pids amount explicitShares
  else .ok (evenSplit amount pids)

/-! ## Net balances (`computeNetBalances`, server.js lines 83-120) -/

/-- First-occurrence key deduplication, matching the key set and key order of
a JavaScript object populated by repeated assignment. -/
def dedupFirst (seen : List String) : List String → List String
  | [] => []
  | k :: ks =>
    if k ∈ seen then dedupFirst seen ks else k :: dedupFirst (k :: seen) ks

/-- `net` after the initialization loop (lines 85-87): one key per distinct
participant id, in first-occurrence order, each mapped to `0`. -/
def initNet (ps : List Participant) : List (String × ℚ) :=
  (dedupFirst [] (ps.map (·.id))).map fun k => (k, 0)

/-- `if (net.hasOwnProperty(pid)) net[pid] += amt`: entries whose key matches
are incremented; a missing key leaves the map unchanged. -/
def addTo (net : List (String × ℚ)) (pid : String) (amt : ℚ) :
    List (String × ℚ) :=
  net.map fun e => if e.1 = pid then (e.1, e.2 + amt) else e

/-- Processing of one expense (lines 90-103): credit the payer, then debit
each share's participant, in share order. -/
def applyExpense (net : List (String × ℚ)) (e : Expense) :
    List (String × ℚ) :=
  e.shares.foldl (fun n s => addTo n s.participant_id (-s.amount))
    (addTo net e.payer_id e.amount)

/-- Processing of one transfer (lines 110-117): credit the sender, debit the
recipient. -/
def applyTransfer (net : List (String × ℚ)) (t : Transfer) :
    List (String × ℚ) :=
  addTo (addTo net t.from_id t.amount) t.to_id (-t.amount)

/-- `computeNetBalances` (server.js lines 83-120). -/
def computeNetBalances (trip : Trip) : List (String × ℚ) :=
  trip.transfers.foldl applyTransfer
    (trip.expenses.foldl applyExpense (initNet trip.participants))

/-- The value stored under key `p` (sum formulation, so that it is defined
for arbitrary association lists; under distinct keys it is the unique
stored value, and `0` for an absent key). -/
def getBal (net : List (String × ℚ)) (p : String) : ℚ :=
  ((net.filter fun e => e.1 = p).map (·.2)).sum

/-- Sum of all stored balances. -/
def sumVals (net : List (String × ℚ)) : ℚ := (net.map (·.2)).sum

/-! ## Trip date derivation (`deriveTripDates`, server.js lines 53-72) -/

/-- JavaScript truthiness of an optional string field: `null`/absent and the
empty string are falsy. -/
def truthy : Option String → Bool
  | none => false
  | some s => s ≠ ""

/-- The `dates` array (lines 55-65): truthy expense dates in order, then
truthy transfer dates in order. -/
def gatherDates (trip : Trip) : List String :=
  trip.expenses.filterMap (fun e => if truthy e.date then e.date else none)
    ++ trip.transfers.filterMap (fun t => if truthy t.date then t.date else none)

/-- `dates.sort()` (line 66): JavaScript's default sort on strings is
lexicographic. -/
def sortedDates (trip : Trip) : List String :=
  (gatherDates trip).insertionSort fun a b : String => a ≤ b

/-- `deriveTripDates` (server.js lines 53-72): keep a truthy explicit date,
otherwise fall back to the first/last sorted record date when any exist. -/
def deriveTripDates (trip : Trip) : Option String × Option String :=
  ((if truthy trip.start_date = false ∧ sortedDates trip ≠ [] then
      (sortedDates trip).head?
    else trip.start_date),
   (if truthy trip.end_date = false ∧ sortedDates trip ≠ [] then
      (sortedDates trip).getLast?
    else trip.end_date))

/-! ## Settlement matrix (`computeDebtMatrix`, server.js lines 129-160) -/

/-- The epsilon used by the sign partition and the cursor advances. -/
def eps : ℚ := 1/1000000

/-- Debtor list (lines 132-139): entries with balance below `-eps`, in key
order, carrying the owed magnitude `-balance`. -/
def debtorsOf (net : List (String × ℚ)) : List (String × ℚ) :=
  (net.filter fun e => e.2 < -eps).map fun e => (e.1, -e.2)

/-- Creditor list (lines 132-139): entries with balance above `eps`, in key
order. -/
def creditorsOf (net : List (String × ℚ)) : List (String × ℚ) :=
  net.filter fun e => e.2 > eps

/-- `arr.sort((a, b) => b.amount - a.amount)` (lines 141-142): a stable sort
by amount descending.  `insertionSort` with this relation is stable: an
element is inserted before exactly the later elements of strictly smaller
amount, so ties keep their input order, as in the (ES2019-stable) source. -/
def sortDesc (l : List (String × ℚ)) : List (String × ℚ) :=
  l.insertionSort fun a b => b.2 ≤ a.2

/-- Sorted debtor list of `computeDebtMatrix`. -/
def debtorsSorted (net : List (String × ℚ)) : List (String × ℚ) :=
  sortDesc (debtorsOf net)

/-- Sorted creditor list of `computeDebtMatrix`. -/
def creditorsSorted (net : List (String × ℚ)) : List (String × ℚ) :=
  sortDesc (creditorsOf net)

/-- The two-pointer greedy loop (lines 147-158), with the cursors replaced by
popping list heads.  Each iteration advances at least one cursor (the `min`
zeroes one remainder), so the loop runs at most `debtors.length +
creditors.length` times; the `fuel` argument is instantiated with exactly
that bound.  When the debtor's remainder stays at or above `eps`, the settled
amount was the creditor's whole remainder, so the creditor cursor advances.
The accumulation `matrix[d][c] = (matrix[d][c] || 0) + t` is modelled by
emitting one `(debtor, creditor, amount)` triple per iteration and summing
matching triples on lookup. -/
def settleLoop : Nat → List (String × ℚ) → List (String × ℚ) →
    List (String × String × ℚ)
  | 0, _, _ => []
  | _ + 1, [], _ => []
  | _ + 1, _ :: _, [] => []
  | fuel + 1, (d, da) :: ds, (c, ca) :: cs =>
    (d, c, min da ca) ::
      if da - min da ca < eps then
        if ca - min da ca < eps then settleLoop fuel ds cs
        else settleLoop fuel ds ((c, ca - min da ca) :: cs)
      else settleLoop fuel ((d, da - min da ca) :: ds) cs

/-- The debt matrix: `rows` are the keys pre-created for every debtor
(lines 144-146), `entries` the accumulated pairwise amounts. -/
structure DebtMatrix where
  rows : List String
  entries : List (String × String × ℚ)
  deriving DecidableEq

/-- `computeDebtMatrix` (server.js lines 129-160). -/
def computeDebtMatrix (net : List (String × ℚ)) : DebtMatrix :=
  { rows := (debtorsSorted net).map (·.1)
    entries :=
      settleLoop ((debtorsSorted net).length + (creditorsSorted net).length)
        (debtorsSorted net) (creditorsSorted net) }

/-- `sum(matrix[d][*])`: total amount debtor `d` is instructed to pay. -/
def rowSum (entries : List (String × String × ℚ)) (d : String) : ℚ :=
  ((entries.filter fun e => e.1 = d).map fun e => e.2.2).sum

/-- `sum(matrix[*][c])`: total amount creditor `c` is instructed to
receive. -/
def colSum (entries : List (String × String × ℚ)) (c : String) : ℚ :=
  ((entries.filter fun e => e.2.1 = c).map fun e => e.2.2).sum

/-- Sum of the magnitudes of a debtor/creditor list. -/
def totalAmt (l : List (String × ℚ)) : ℚ := (l.map (·.2)).sum

/-! ## Concrete ledgers and balance maps used in the claim analyses -/

/-- The end-to-end scenario ledger: participants A, B, C and one expense of
100.00 paid by A with the equal split. -/
def tripABC : Trip :=
  { id := "t1", name := "trip", location := "loc",
    start_date := none, end_date := none,
    participants := [⟨"A", "Alice"⟩, ⟨"B", "Bob"⟩, ⟨"C", "Cara"⟩],
    expenses := [{ id := "e1", payer_id := "A", amount := 100,
                   description := "dinner", date := none,
                   shares := evenSplit 100 ["A", "B", "C"] }],
    transfers := [] }

/-- A ledger whose only expense references a payer id (`"B"`) that is absent
from the participant set. -/
def danglingTrip : Trip :=
  { id := "t2", name := "trip", location := "loc",
    start_date := none, end_date := none,
    participants := [⟨"A", "Alice"⟩],
    expenses := [{ id := "e1", payer_id := "B", amount := 5,
                   description := "x", date := none,
                   shares := [⟨"A", 5⟩] }],
    transfers := [] }

/-- An exactly zero-sum balances map on which the per-entry `1e-6` settlement
postcondition fails: both debtors drop a sub-epsilon residual of `9e-7` when
their cursor advances, so the third creditor's `1.8e-6` is never paid. -/
def cexNetC3 : List (String × ℚ) :=
  [("c1", 2), ("c2", 2), ("c3", 18/10000000),
   ("d1", -(2 + 9/10000000)), ("d2", -(2 + 9/10000000))]

/-- A balances map with two creditors of equal magnitude whose ids are in
descending order, exposing the tie-break behaviour of the sort. -/
def cexNetC6 : List (String × ℚ) := [("pz", 1), ("pa", 1), ("pd", -2)]

/-- The ordering asserted by the specification for the debtor and creditor
lists: magnitude descending, ties broken by participant id ascending. -/
def specTieOrder (a b : String × ℚ) : Prop :=
  a.2 > b.2 ∨ (a.2 = b.2 ∧ a.1 ≤ b.1)

/-! ## Concrete evaluations -/

/-- C2, evaluation at the failing input: with amount `0.20` and participants
A, B, C the even split rounds `0.20/3` up to `0.07`; the remainder `-0.01`
is negative and the loop only redistributes positive remainders, so the
returned shares sum to `0.21`, not to the expense amount. -/
theorem c2_negative_remainder_lost :
    allocate (1/5) ["A", "B", "C"] [] =
      .ok [⟨"A", 7/100⟩, ⟨"B", 7/100⟩, ⟨"C", 7/100⟩] ∧
    ((evenSplit (1/5) ["A", "B", "C"]).map (·.amount)).sum ≠ 1/5 := by
  constructor
  · norm_num [allocate, evenSplit, evenSplitGo, round2]
  · norm_num [evenSplit, evenSplitGo, round2]

/-- C5, counterexample: the even split with an empty participant list
returns successfully with an empty share list; it does not fail with any
validation error (no `NoParticipants` check exists in the source). -/
theorem c5_empty_participants_returns_ok :
    allocate 100 [] [] = .ok [] ∧
    ∀ err : AllocError, allocate 100 [] [] ≠ .error err := by
  refine ⟨by norm_num [allocate, evenSplit, evenSplitGo], fun err h => ?_⟩
  rw [show allocate 100 [] [] = .ok [] from by
    norm_num [allocate, evenSplit, evenSplitGo]] at h
  exact Except.noConfusion h

/-- C5 as amended: for every amount, an even split over the empty
participant list succeeds with the empty share list. -/
theorem c5_amended_empty_split (amount : ℚ) :
    allocate amount [] [] = .ok [] := by
  simp [allocate, evenSplit, evenSplitGo]

/-- C9: end-to-end scenario.  Participants A, B, C with one expense of
100.00 paid by A, equal split: the allocated shares are A=33.34, B=33.33,
C=33.33; the net balances are A=+66.66, B=-33.33, C=-33.33; and the
settlement matrix contains exactly the entries B→A: 33.33 and C→A: 33.33. -/
theorem c9_end_to_end_scenario :
    evenSplit 100 ["A", "B", "C"] =
      [⟨"A", 3334/100⟩, ⟨"B", 3333/100⟩, ⟨"C", 3333/100⟩] ∧
    computeNetBalances tripABC =
      [("A", 6666/100), ("B", -3333/100), ("C", -3333/100)] ∧
    (computeDebtMatrix (computeNetBalances tripABC)).entries =
      [("B", "A", 3333/100), ("C", "A", 3333/100)] := by
  refine ⟨by norm_num [evenSplit, evenSplitGo, round2], ?_, ?_⟩
  · norm_num +decide [computeNetBalances, tripABC, initNet, dedupFirst,
      applyExpense, applyTransfer, addTo, evenSplit, evenSplitGo, round2]
  · norm_num +decide [computeNetBalances, tripABC, initNet, dedupFirst,
      applyExpense, applyTransfer, addTo, evenSplit, evenSplitGo, round2,
      computeDebtMatrix, debtorsSorted, creditorsSorted, sortDesc, debtorsOf,
      creditorsOf, List.insertionSort, List.orderedInsert, settleLoop, eps,
      min_def]

/-- C4, counterexample: on a ledger whose only expense names the absent
payer id "B", `computeNetBalances` does not fail; it returns a balance map
in which the payer credit was silently skipped (participant "A" ends at
-5 and the +5 for "B" is recorded nowhere). -/
theorem c4_dangling_reference_skipped :
    computeNetBalances danglingTrip = [("A", -5)] := by
  norm_num +decide [computeNetBalances, danglingTrip, initNet, dedupFirst,
    applyExpense, applyTransfer, addTo]

/-- C3, counterexample: `cexNetC3` sums to zero exactly, yet the creditor
"c3" (magnitude `1.8e-6`) receives nothing in the computed matrix, because
both debtors' cursors advance while dropping a residual of `9e-7` each: the
column sum misses the magnitude by more than the claimed `1e-6`. -/
theorem c3_per_entry_epsilon_fails :
    (cexNetC3.map (·.2)).sum = 0 ∧
    ¬ |colSum (computeDebtMatrix cexNetC3).entries ("c3") - 18/10000000| ≤ eps := by
  constructor
  · norm_num [cexNetC3]
  · rw [show colSum (computeDebtMatrix cexNetC3).entries ("c3") = 0 from by
      norm_num +decide [cexNetC3, computeDebtMatrix, debtorsSorted,
        creditorsSorted, sortDesc, debtorsOf, creditorsOf, List.insertionSort,
        List.orderedInsert, settleLoop, eps, min_def, colSum]]
    rw [zero_sub, abs_neg, abs_of_nonneg (by norm_num)]
    norm_num [eps]

/-- C6, counterexample: on `cexNetC6` the two creditors "pz" and "pa" tie at
magnitude 1; the sort is stable so they stay in balances-map order
("pz" before "pa"), violating the claimed id-ascending tie-break. -/
theorem c6_tie_break_not_id_ascending :
    ¬ List.Pairwise specTieOrder (creditorsSorted cexNetC6) := by
  rw [show creditorsSorted cexNetC6 = [("pz", 1), ("pa", 1)] from by
    norm_num +decide [cexNetC6, creditorsSorted, sortDesc, creditorsOf,
      List.insertionSort, List.orderedInsert, eps]]
  intro h
  rcases List.pairwise_cons.mp h with ⟨h1, -⟩
  rcases h1 _ (List.mem_singleton.mpr rfl) with h2 | ⟨-, h3⟩
  · exact absurd h2 (by norm_num)
  · revert h3
    simp only [String.le_iff_toList_le]
    decide

/-- C8, counterexample: the share list `[(A, -5), (X, 10)]` contains an
entry whose participant id "X" is unknown, yet the code reports the
negative amount of the earlier entry, not `UnknownParticipant`: the first
offending entry in scan order decides the error. -/
theorem c8_scan_order_decides_error :
    ("X" : String) ∉ ["A", "B", "C"] ∧
    allocate 100 ["A", "B", "C"] [("A", -5), ("X", 10)] =
      .error .negativeShare ∧
    allocate 100 ["A", "B", "C"] [("A", -5), ("X", 10)] ≠
      .error .unknownParticipant := by
  refine ⟨by simp, ?_, ?_⟩ <;>
    norm_num +decide [allocate, validateShares, checkShares]

/-! ## Sortedness and stability of the settlement sort -/

instance : IsTotal (String × ℚ) (fun a b => b.2 ≤ a.2) :=
  ⟨fun a b => le_total b.2 a.2⟩

instance : IsTrans (String × ℚ) (fun a b => b.2 ≤ a.2) :=
  ⟨fun _ _ _ hab hbc => le_trans hbc hab⟩

theorem sortDesc_sorted (l : List (String × ℚ)) :
    List.Sorted (fun a b => b.2 ≤ a.2) (sortDesc l) :=
  List.sorted_insertionSort _ l

theorem sortDesc_perm (l : List (String × ℚ)) : List.Perm (sortDesc l) l :=
  List.perm_insertionSort _ l

/-- Inserting an element into a list places it before exactly the elements
of strictly smaller amount, so the amount-level filter commutes with the
insertion. -/
theorem filter_orderedInsert_amt (a : String × ℚ) (l : List (String × ℚ))
    (v : ℚ) :
    ((l.orderedInsert (fun x y => y.2 ≤ x.2) a).filter fun e => e.2 = v) =
      if a.2 = v then a :: l.filter (fun e => e.2 = v)
      else l.filter fun e => e.2 = v := by
  rw [List.orderedInsert_eq_take_drop, List.filter_append]
  by_cases h : a.2 = v
  · rw [if_pos h]
    have htake :
        ((l.takeWhile fun b => ¬(b.2 ≤ a.2)).filter fun e => e.2 = v) = [] := by
      refine List.filter_eq_nil_iff.mpr fun x hx => ?_
      have hlt : ¬(x.2 ≤ a.2) := by
        simpa using List.mem_takeWhile_imp hx
      simp only [decide_eq_true_eq]
      intro hxv
      exact hlt (le_of_eq (hxv.trans h.symm))
    rw [htake, List.nil_append, List.filter_cons, if_pos (by simpa using h)]
    congr 1
    conv_rhs => rw [← List.takeWhile_append_dropWhile
      (p := fun b => decide (¬(b.2 ≤ a.2))) (l := l)]
    rw [List.filter_append, htake, List.nil_append]
  · rw [if_neg h, List.filter_cons, if_neg (by simpa using h),
      ← List.filter_append, List.takeWhile_append_dropWhile]

/-- Stability of the settlement sort: the sublist of entries holding any
fixed amount is unchanged by sorting, i.e. ties keep their input order. -/
theorem filter_sortDesc_amt (l : List (String × ℚ)) (v : ℚ) :
    ((sortDesc l).filter fun e => e.2 = v) = l.filter fun e => e.2 = v := by
  induction l with
  | nil => rfl
  | cons a l ih =>
    show ((List.orderedInsert _ a (sortDesc l)).filter fun e => e.2 = v) = _
    rw [filter_orderedInsert_amt, List.filter_cons]
    by_cases h : a.2 = v
    · rw [if_pos h, if_pos (by simpa using h), ih]
    · rw [if_neg h, if_neg (by simpa using h), ih]

/-- C6 as amended: both lists are sorted by magnitude descending, and the
sort is stable — entries of equal magnitude keep the relative order they
have in the balances map (there is no id-ascending secondary key). -/
theorem c6_amended_stable_descending_sort (net : List (String × ℚ)) :
    List.Sorted (fun a b => b.2 ≤ a.2) (debtorsSorted net) ∧
    List.Sorted (fun a b => b.2 ≤ a.2) (creditorsSorted net) ∧
    (∀ v : ℚ, ((debtorsSorted net).filter fun e => e.2 = v) =
      (debtorsOf net).filter fun e => e.2 = v) ∧
    (∀ v : ℚ, ((creditorsSorted net).filter fun e => e.2 = v) =
      (creditorsOf net).filter fun e => e.2 = v) :=
  ⟨sortDesc_sorted _, sortDesc_sorted _,
   fun v => filter_sortDesc_amt _ v, fun v => filter_sortDesc_amt _ v⟩

/-! ## Date derivation: the sorted list's ends are the extrema -/

theorem sorted_head?_le {α : Type} [LinearOrder α] {l : List α}
    (h : List.Sorted (fun a b : α => a ≤ b) l) {m x : α}
    (hm : l.head? = some m) (hx : x ∈ l) : m ≤ x := by
  match l, hm with
  | a :: t, hm =>
    obtain rfl : a = m := by simpa using hm
    rcases List.mem_cons.mp hx with rfl | hx
    · exact le_refl x
    · exact (List.pairwise_cons.mp h).1 x hx

theorem sorted_le_getLast? {α : Type} [LinearOrder α] : ∀ {l : List α},
    List.Sorted (fun a b : α => a ≤ b) l → ∀ {m x : α},
    l.getLast? = some m → x ∈ l → x ≤ m := by
  intro l
  induction l with
  | nil => intro _ m x _ hx; cases hx
  | cons a t ih =>
    intro h m x hm hx
    match t, hm with
    | [], hm =>
      have hax : x = a := by simpa using hx
      have ham : a = m := by simpa using hm
      exact le_of_eq (hax.trans ham)
    | b :: t', hm =>
      have hm' : (b :: t').getLast? = some m := by
        simpa [List.getLast?_cons_cons] using hm
      rcases List.mem_cons.mp hx with rfl | hx
      · calc x ≤ b := (List.pairwise_cons.mp h).1 b (by simp)
          _ ≤ m := ih (List.sorted_cons.mp h).2 hm' (by simp)
      · exact ih (List.sorted_cons.mp h).2 hm' hx

/-- The non-null date strings of a trip's expenses and transfers, as the
specification describes them. -/
def nonNullDates (trip : Trip) : List String :=
  trip.expenses.filterMap (·.date) ++ trip.transfers.filterMap (·.date)

theorem sortedDates_perm (trip : Trip) :
    List.Perm (sortedDates trip) (gatherDates trip) :=
  List.perm_insertionSort _ _

theorem sortedDates_sorted (trip : Trip) :
    List.Sorted (fun a b : String => a ≤ b) (sortedDates trip) :=
  List.sorted_insertionSort _ _

/-- C7: explicit dates are returned unchanged; a side without an explicit
value is the lexicographic minimum (resp. maximum) of the non-null record
dates, and `null` when no dated records exist.  The hypotheses record the
data-model invariant that stored dates are (non-empty) `YYYY-MM-DD`
strings, never the empty string. -/
theorem c7_derive_trip_dates (trip : Trip)
    (hsv : trip.start_date ≠ some ("")) (hev : trip.end_date ≠ some (""))
    (hxd : ∀ e ∈ trip.expenses, e.date ≠ some (""))
    (htd : ∀ t ∈ trip.transfers, t.date ≠ some ("")) :
    gatherDates trip = nonNullDates trip ∧
    ((trip.start_date ≠ none → (deriveTripDates trip).1 = trip.start_date) ∧
     (trip.start_date = none → gatherDates trip = [] →
       (deriveTripDates trip).1 = none) ∧
     (trip.start_date = none → gatherDates trip ≠ [] →
       ∃ m, (deriveTripDates trip).1 = some m ∧ m ∈ gatherDates trip ∧
         ∀ d ∈ gatherDates trip, m ≤ d)) ∧
    ((trip.end_date ≠ none → (deriveTripDates trip).2 = trip.end_date) ∧
     (trip.end_date = none → gatherDates trip = [] →
       (deriveTripDates trip).2 = none) ∧
     (trip.end_date = none → gatherDates trip ≠ [] →
       ∃ m, (deriveTripDates trip).2 = some m ∧ m ∈ gatherDates trip ∧
         ∀ d ∈ gatherDates trip, d ≤ m)) := by
  have hgather : gatherDates trip = nonNullDates trip := by
    unfold gatherDates nonNullDates
    congr 1
    · refine List.filterMap_congr fun e he => ?_
      match hd : e.date with
      | none => simp [truthy]
      | some d =>
        have : d ≠ "" := by intro h; exact hxd e he (by rw [hd, h])
        simp [truthy, this]
    · refine List.filterMap_congr fun t ht => ?_
      match hd : t.date with
      | none => simp [truthy]
      | some d =>
        have : d ≠ "" := by intro h; exact htd t ht (by rw [hd, h])
        simp [truthy, this]
  have hfst : (deriveTripDates trip).1 =
      if truthy trip.start_date = false ∧ sortedDates trip ≠ [] then
        (sortedDates trip).head?
      else trip.start_date := rfl
  have hsnd : (deriveTripDates trip).2 =
      if truthy trip.end_date = false ∧ sortedDates trip ≠ [] then
        (sortedDates trip).getLast?
      else trip.end_date := rfl
  have hne_iff : sortedDates trip ≠ [] ↔ gatherDates trip ≠ [] := by
    constructor <;> intro h h' <;> apply h
    · exact List.Perm.eq_nil (h' ▸ sortedDates_perm trip)
    · exact List.Perm.eq_nil (h' ▸ (sortedDates_perm trip).symm)
  refine ⟨hgather, ⟨?_, ?_, ?_⟩, ⟨?_, ?_, ?_⟩⟩
  · intro hs
    rw [hfst, if_neg]
    rintro ⟨hf, -⟩
    match h : trip.start_date with
    | none => exact hs h
    | some d =>
      have hd : d ≠ "" := fun h' => hsv (by rw [h, h'])
      rw [h] at hf
      simp [truthy, hd] at hf
  · intro hs hd
    rw [hfst, if_neg, hs]
    rintro ⟨-, hne⟩
    exact (hne_iff.mp hne) hd
  · intro hs hd
    have hne : sortedDates trip ≠ [] := hne_iff.mpr hd
    match h : sortedDates trip with
    | [] => exact absurd h hne
    | m :: rest =>
      refine ⟨m, ?_, ?_, ?_⟩
      · rw [hfst, if_pos ⟨by rw [hs]; rfl, hne⟩, h]; rfl
      · exact (sortedDates_perm trip).mem_iff.mp (h ▸ List.mem_cons_self m rest)
      · intro d hdm
        refine sorted_head?_le (l := m :: rest) (h ▸ sortedDates_sorted trip)
          rfl (h ▸ (sortedDates_perm trip).mem_iff.mpr hdm)
  · intro he
    rw [hsnd, if_neg]
    rintro ⟨hf, -⟩
    match h : trip.end_date with
    | none => exact he h
    | some d =>
      have hd : d ≠ "" := fun h' => hev (by rw [h, h'])
      rw [h] at hf
      simp [truthy, hd] at hf
  · intro he hd
    rw [hsnd, if_neg, he]
    rintro ⟨-, hne⟩
    exact (hne_iff.mp hne) hd
  · intro he hd
    have hne : sortedDates trip ≠ [] := hne_iff.mpr hd
    obtain ⟨m, hm⟩ : ∃ m, (sortedDates trip).getLast? = some m := by
      match h : sortedDates trip with
      | [] => exact absurd h hne
      | a :: rest =>
        exact ⟨(a :: rest).getLast (by simp), List.getLast?_eq_getLast _ _⟩
    refine ⟨m, ?_, ?_, ?_⟩
    · rw [hsnd, if_pos ⟨by rw [he]; rfl, hne⟩, hm]
    · obtain ⟨hne2, heq⟩ := List.mem_getLast?_eq_getLast
        (show m ∈ (sortedDates trip).getLast? from hm)
      exact (sortedDates_perm trip).mem_iff.mp (heq ▸ List.getLast_mem hne2)
    · intro d hdm
      exact sorted_le_getLast? (sortedDates_sorted trip) hm
        ((sortedDates_perm trip).mem_iff.mpr hdm)

/-! ## Explicit-shares validation: scan-order characterization -/

/-- The per-entry scan stops at the first entry violating either check and
reports `UnknownParticipant` or `NegativeShare` according to which check
that entry fails (participant existence is tested first). -/
theorem checkShares_eq_find (pids : List String) (body : List (String × ℚ)) :
    checkShares pids body =
      (body.find? fun e => decide (e.1 ∉ pids ∨ e.2 < 0)).map
        fun e => if e.1 ∈ pids then AllocError.negativeShare
                 else AllocError.unknownParticipant := by
  induction body with
  | nil => rfl
  | cons x rest ih =>
    by_cases h1 : x.1 ∈ pids
    · by_cases h2 : x.2 < 0
      · rw [checkShares, if_neg (by simpa using h1), if_pos h2,
          List.find?_cons_of_pos _ (by simp [h1, h2]), Option.map_some',
          if_pos h1]
      · rw [checkShares, if_neg (by simpa using h1), if_neg h2,
          List.find?_cons_of_neg _ (by simp [h1, h2]), ih]
    · rw [checkShares, if_pos h1,
        List.find?_cons_of_pos _ (by simp [h1]), Option.map_some',
        if_neg h1]

/-- C8 as amended: for a non-empty explicit share list, the error is decided
by the first entry (in scan order) failing a per-entry check —
`UnknownParticipant` when that entry's id is unknown, otherwise
`NegativeShare`; only when every entry passes both checks is the 0.01 sum
tolerance tested (`ShareSumMismatch`), and on success the supplied shares
are returned unchanged. -/
theorem c8_amended_first_violation (amount : ℚ) (pids : List String)
    (body : List (String × ℚ)) (h0 : 0 < amount) (h1 : pids ≠ [])
    (h2 : body ≠ []) :
    allocate amount pids body =
      match body.find? fun e => decide (e.1 ∉ pids ∨ e.2 < 0) with
      | some e => .error (if e.1 ∈ pids then AllocError.negativeShare
                          else AllocError.unknownParticipant)
      | none =>
        if |(body.map (·.2)).sum - amount| > 1/100 then
          .error AllocError.shareSumMismatch
        else .ok (body.map fun e => { participant_id := e.1, amount := e.2 }) := by
  rw [allocate, if_pos (by simpa using List.length_pos.mpr h2), validateShares,
    checkShares_eq_find]
  cases body.find? fun e => decide (e.1 ∉ pids ∨ e.2 < 0) <;> rfl

/-! ## Settlement loop: per-entry bounds and provenance -/

theorem eps_pos : (0 : ℚ) < eps := by norm_num [eps]

/-- Every emitted entry settles at least `eps`, its debtor id comes from the
debtor list and its creditor id from the creditor list, provided every
remaining magnitude is at least `eps` — which the loop maintains, since a
cursor only stays on an entry whose remainder is still at least `eps`. -/
theorem settleLoop_entries : ∀ (fuel : Nat) (ds cs : List (String × ℚ)),
    (∀ x ∈ ds, eps ≤ x.2) → (∀ x ∈ cs, eps ≤ x.2) →
    ∀ e ∈ settleLoop fuel ds cs,
      eps ≤ e.2.2 ∧ e.1 ∈ ds.map Prod.fst ∧ e.2.1 ∈ cs.map Prod.fst := by
  intro fuel
  induction fuel with
  | zero => intro ds cs _ _ e he; simp [settleLoop] at he
  | succ n ih =>
    intro ds cs hds hcs e he
    match ds, cs with
    | [], _ => simp [settleLoop] at he
    | x :: ds2, [] => simp [settleLoop] at he
    | (d, da) :: ds2, (c, ca) :: cs2 =>
      rw [settleLoop] at he
      rcases List.mem_cons.mp he with rfl | hrest
      · exact ⟨le_min (hds (d, da) (by simp)) (hcs (c, ca) (by simp)), by simp, by simp⟩
      · by_cases h1 : da - min da ca < eps
        · rw [if_pos h1] at hrest
          by_cases h2 : ca - min da ca < eps
          · rw [if_pos h2] at hrest
            obtain ⟨ha, hd, hc⟩ := ih ds2 cs2
              (fun y hy => hds y (by simp [hy]))
              (fun y hy => hcs y (by simp [hy])) e hrest
            exact ⟨ha, by simp [hd], by simp [hc]⟩
          · rw [if_neg h2] at hrest
            obtain ⟨ha, hd, hc⟩ := ih ds2 ((c, ca - min da ca) :: cs2)
              (fun y hy => hds y (by simp [hy]))
              (fun y hy => by
                rcases List.mem_cons.mp hy with rfl | hy
                · simpa using le_of_not_lt h2
                · exact hcs y (by simp [hy])) e hrest
            refine ⟨ha, by simp [hd], ?_⟩
            simpa using hc
        · rw [if_neg h1] at hrest
          obtain ⟨ha, hd, hc⟩ := ih ((d, da - min da ca) :: ds2) cs2
            (fun y hy => by
              rcases List.mem_cons.mp hy with rfl | hy
              · simpa using le_of_not_lt h1
              · exact hds y (by simp [hy]))
            (fun y hy => hcs y (by simp [hy])) e hrest
          refine ⟨ha, ?_, by simp [hc]⟩
          simpa using hd

/-- In a list with distinct keys, a key determines its stored value. -/
theorem nodup_key_val {net : List (String × ℚ)}
    (hnd : (net.map Prod.fst).Nodup) {k : String} {v1 v2 : ℚ}
    (h1 : (k, v1) ∈ net) (h2 : (k, v2) ∈ net) : v1 = v2 := by
  induction net with
  | nil => cases h1
  | cons x rest ih =>
    rw [List.map_cons, List.nodup_cons] at hnd
    rcases List.mem_cons.mp h1 with rfl | h1' <;>
      rcases List.mem_cons.mp h2 with h2' | h2'
    · exact congrArg Prod.snd h2'.symm
    · exact absurd (List.mem_map_of_mem Prod.fst h2') hnd.1
    · have : x.1 = k := by rw [← h2']
      rw [← this] at h1'
      exact absurd (List.mem_map_of_mem Prod.fst h1')
        (by simpa [this] using hnd.1)
    · exact ih hnd.2 h1' h2'

/-- A debtor id belongs to an entry of the balances map with balance below
`-eps`. -/
theorem mem_debtors_map {net : List (String × ℚ)} {p : String}
    (hp : p ∈ (debtorsSorted net).map Prod.fst) :
    ∃ b, (p, b) ∈ net ∧ b < -eps := by
  obtain ⟨x, hx, hfst⟩ := List.mem_map.mp hp
  have hx2 : x ∈ debtorsOf net := ((sortDesc_perm _).mem_iff).mp hx
  obtain ⟨y, hy, hxy⟩ := List.mem_map.mp hx2
  have hyf := List.mem_filter.mp hy
  refine ⟨y.2, ?_, by simpa using hyf.2⟩
  have : y.1 = p := by rw [← hfst, ← hxy]
  simpa [← this] using hyf.1

/-- A creditor id belongs to an entry of the balances map with balance above
`eps`. -/
theorem mem_creditors_map {net : List (String × ℚ)} {p : String}
    (hp : p ∈ (creditorsSorted net).map Prod.fst) :
    ∃ b, (p, b) ∈ net ∧ eps < b := by
  obtain ⟨x, hx, hfst⟩ := List.mem_map.mp hp
  have hx2 : x ∈ creditorsOf net := ((sortDesc_perm _).mem_iff).mp hx
  have hyf := List.mem_filter.mp hx2
  refine ⟨x.2, ?_, by simpa using hyf.2⟩
  have : (p, x.2) = x := by
    rw [← hfst]
  rw [this]
  exact hyf.1

/-- C10: every amount stored in the matrix is strictly positive — indeed at
least `eps = 1e-6` — and no entry pairs a debtor with itself: the sign
partition makes the debtor and creditor id sets disjoint. -/
theorem c10_entries_positive_distinct (net : List (String × ℚ))
    (hnd : (net.map Prod.fst).Nodup) :
    ∀ e ∈ (computeDebtMatrix net).entries,
      (0 < e.2.2 ∧ eps ≤ e.2.2) ∧ e.1 ≠ e.2.1 := by
  intro e he
  have hds : ∀ x ∈ debtorsSorted net, eps ≤ x.2 := by
    intro x hx
    have hx2 : x ∈ debtorsOf net := ((sortDesc_perm _).mem_iff).mp hx
    obtain ⟨y, hy, hxy⟩ := List.mem_map.mp hx2
    have := (List.mem_filter.mp hy).2
    rw [← hxy]
    simp only [decide_eq_true_eq] at this
    simpa using le_of_lt (by linarith)
  have hcs : ∀ x ∈ creditorsSorted net, eps ≤ x.2 := by
    intro x hx
    have hx2 : x ∈ creditorsOf net := ((sortDesc_perm _).mem_iff).mp hx
    have := (List.mem_filter.mp hx2).2
    simp only [decide_eq_true_eq] at this
    exact le_of_lt this
  obtain ⟨ha, hd, hc⟩ := settleLoop_entries _ _ _ hds hcs e he
  refine ⟨⟨lt_of_lt_of_le eps_pos ha, ha⟩, fun heq => ?_⟩
  obtain ⟨b1, hb1, hb1lt⟩ := mem_debtors_map hd
  obtain ⟨b2, hb2, hb2gt⟩ := mem_creditors_map (heq ▸ hc)
  have : b1 = b2 := nodup_key_val hnd hb1 hb2
  have heps := eps_pos
  linarith

/-! ## Net-balance bookkeeping lemmas -/

/-- The key list of a balances map. -/
def keysOf (net : List (String × ℚ)) : List String := net.map Prod.fst

theorem mem_dedupFirst : ∀ (seen l : List String) (k : String),
    k ∈ dedupFirst seen l ↔ k ∈ l ∧ k ∉ seen := by
  intro seen l
  induction l generalizing seen with
  | nil => intro k; simp [dedupFirst]
  | cons a rest ih =>
    intro k
    rw [dedupFirst]
    by_cases ha : a ∈ seen
    · rw [if_pos ha, ih]
      constructor
      · rintro ⟨hk, hns⟩; exact ⟨by simp [hk], hns⟩
      · rintro ⟨hk, hns⟩
        rcases List.mem_cons.mp hk with rfl | hk
        · exact absurd ha hns
        · exact ⟨hk, hns⟩
    · rw [if_neg ha]
      constructor
      · intro hk
        rcases List.mem_cons.mp hk with rfl | hk
        · exact ⟨by simp, ha⟩
        · obtain ⟨h1, h2⟩ := (ih (a :: seen) k).mp hk
          exact ⟨by simp [h1], fun hs => h2 (by simp [hs])⟩
      · rintro ⟨hk, hns⟩
        rcases List.mem_cons.mp hk with rfl | hk
        · exact List.mem_cons_self _ _
        · by_cases hka : k = a
          · exact hka ▸ List.mem_cons_self _ _
          · exact List.mem_cons_of_mem _
              ((ih (a :: seen) k).mpr ⟨hk, by simp [hka, hns]⟩)

theorem dedupFirst_nodup : ∀ (seen l : List String),
    (dedupFirst seen l).Nodup := by
  intro seen l
  induction l generalizing seen with
  | nil => exact List.nodup_nil
  | cons a rest ih =>
    rw [dedupFirst]
    by_cases ha : a ∈ seen
    · rw [if_pos ha]; exact ih seen
    · rw [if_neg ha, List.nodup_cons]
      refine ⟨fun hmem => ?_, ih (a :: seen)⟩
      exact ((mem_dedupFirst (a :: seen) rest a).mp hmem).2 (by simp)

theorem keysOf_initNet (ps : List Participant) :
    keysOf (initNet ps) = dedupFirst [] (ps.map (·.id)) := by
  rw [keysOf, initNet, List.map_map]
  have hcomp : (Prod.fst ∘ fun k : String => (k, (0 : ℚ))) = id := rfl
  rw [hcomp, List.map_id]

theorem keysOf_initNet_nodup (ps : List Participant) :
    (keysOf (initNet ps)).Nodup := by
  rw [keysOf_initNet]; exact dedupFirst_nodup _ _

theorem mem_keysOf_initNet (ps : List Participant) (k : String) :
    k ∈ keysOf (initNet ps) ↔ k ∈ ps.map (·.id) := by
  rw [keysOf_initNet, mem_dedupFirst]
  simp

theorem getBal_initNet (ps : List Participant) (p : String) :
    getBal (initNet ps) p = 0 := by
  rw [initNet, getBal]
  induction dedupFirst [] (ps.map (·.id)) with
  | nil => rfl
  | cons k rest ih =>
    rw [List.map_cons, List.filter_cons]
    by_cases h : k = p
    · simpa [h] using ih
    · simpa [h] using ih

theorem sumVals_initNet (ps : List Participant) : sumVals (initNet ps) = 0 := by
  rw [initNet, sumVals]
  induction dedupFirst [] (ps.map (·.id)) with
  | nil => rfl
  | cons k rest ih => simpa using ih

theorem keysOf_addTo (net : List (String × ℚ)) (pid : String) (amt : ℚ) :
    keysOf (addTo net pid amt) = keysOf net := by
  rw [keysOf, keysOf, addTo, List.map_map]
  refine List.map_congr_left fun e _ => ?_
  by_cases h : e.1 = pid <;> simp [h]

theorem getBal_cons (x : String × ℚ) (rest : List (String × ℚ)) (p : String) :
    getBal (x :: rest) p =
      (if x.1 = p then x.2 else 0) + getBal rest p := by
  rw [getBal, List.filter_cons]
  by_cases h : x.1 = p <;> simp [h, getBal]

theorem getBal_addTo (net : List (String × ℚ)) (pid p : String) (amt : ℚ)
    (hnd : (keysOf net).Nodup) :
    getBal (addTo net pid amt) p =
      getBal net p + (if pid = p ∧ p ∈ keysOf net then amt else 0) := by
  simp only [keysOf] at *
  induction net with
  | nil => simp [getBal, addTo]
  | cons x rest ih =>
    rw [List.map_cons, List.nodup_cons] at hnd
    have hx := ih hnd.2
    rw [addTo, List.map_cons, ← addTo, getBal_cons, getBal_cons, hx]
    by_cases h1 : x.1 = pid
    · by_cases h2 : x.1 = p
      · have hpidp : pid = p := h1 ▸ h2
        have hnp : p ∉ List.map Prod.fst rest := h2 ▸ hnd.1
        simp only [if_pos h1, if_pos h2, hpidp, List.mem_cons, true_and]
        simp [h2, hnp]
        ring
      · have h3 : pid ≠ p := fun hh => h2 (h1.trans hh)
        simp [h1, h2, h3]
    · by_cases h2 : x.1 = p
      · have h3 : pid ≠ p := fun hh => h1 (h2.trans hh.symm)
        have h5 : ¬p = pid := fun hh => h3 hh.symm
        simp [h1, h2, h3, h5]
      · have h4 : p ≠ x.1 := fun hh => h2 hh.symm
        have hiff : (pid = p ∧ p ∈ x.1 :: List.map Prod.fst rest) ↔
            (pid = p ∧ p ∈ List.map Prod.fst rest) := by
          constructor
          · rintro ⟨hp, hm⟩
            rcases List.mem_cons.mp hm with hpx | hm
            · exact absurd hpx h4
            · exact ⟨hp, hm⟩
          · rintro ⟨hp, hm⟩
            exact ⟨hp, List.mem_cons_of_mem _ hm⟩
        simp only [List.map_cons]
        rw [if_neg h1, if_neg h2, if_congr hiff rfl rfl]
        ring

theorem sumVals_cons (x : String × ℚ) (rest : List (String × ℚ)) :
    sumVals (x :: rest) = x.2 + sumVals rest := by
  simp [sumVals]

theorem sumVals_addTo (net : List (String × ℚ)) (pid : String) (amt : ℚ)
    (hnd : (keysOf net).Nodup) :
    sumVals (addTo net pid amt) =
      sumVals net + (if pid ∈ keysOf net then amt else 0) := by
  simp only [keysOf] at *
  induction net with
  | nil => simp [sumVals, addTo]
  | cons x rest ih =>
    rw [List.map_cons, List.nodup_cons] at hnd
    have hx := ih hnd.2
    rw [addTo, List.map_cons, ← addTo, sumVals_cons, sumVals_cons, hx]
    by_cases h1 : x.1 = pid
    · have hnpid : pid ∉ List.map Prod.fst rest := h1 ▸ hnd.1
      simp [h1, hnpid]
      ring
    · have h2 : pid ≠ x.1 := fun hh => h1 hh.symm
      by_cases h3 : pid ∈ List.map Prod.fst rest
      · simp [h1, h2, h3]
        ring
      · simp [h1, h2, h3]

theorem keysOf_foldShares (shares : List Share) (net : List (String × ℚ)) :
    keysOf (shares.foldl
      (fun n s => addTo n s.participant_id (-s.amount)) net) = keysOf net := by
  induction shares generalizing net with
  | nil => rfl
  | cons s rest ih => rw [List.foldl_cons, ih, keysOf_addTo]

theorem keysOf_applyExpense (net : List (String × ℚ)) (e : Expense) :
    keysOf (applyExpense net e) = keysOf net := by
  rw [applyExpense, keysOf_foldShares, keysOf_addTo]

theorem keysOf_applyTransfer (net : List (String × ℚ)) (t : Transfer) :
    keysOf (applyTransfer net t) = keysOf net := by
  rw [applyTransfer, keysOf_addTo, keysOf_addTo]

theorem keysOf_foldExpenses (exps : List Expense) (net : List (String × ℚ)) :
    keysOf (exps.foldl applyExpense net) = keysOf net := by
  induction exps generalizing net with
  | nil => rfl
  | cons e rest ih => rw [List.foldl_cons, ih, keysOf_applyExpense]

theorem keysOf_foldTransfers (trs : List Transfer) (net : List (String × ℚ)) :
    keysOf (trs.foldl applyTransfer net) = keysOf net := by
  induction trs generalizing net with
  | nil => rfl
  | cons t rest ih => rw [List.foldl_cons, ih, keysOf_applyTransfer]

theorem keysOf_computeNetBalances (trip : Trip) :
    keysOf (computeNetBalances trip) = keysOf (initNet trip.participants) := by
  rw [computeNetBalances, keysOf_foldTransfers, keysOf_foldExpenses]

theorem getBal_foldShares (shares : List Share) (net : List (String × ℚ))
    (p : String) (hnd : (keysOf net).Nodup) (hp : p ∈ keysOf net) :
    getBal (shares.foldl
        (fun n s => addTo n s.participant_id (-s.amount)) net) p =
      getBal net p -
        ((shares.filter fun s => s.participant_id = p).map (·.amount)).sum := by
  induction shares generalizing net with
  | nil => simp
  | cons s rest ih =>
    rw [List.foldl_cons,
      ih _ (by rw [keysOf_addTo]; exact hnd) (by rw [keysOf_addTo]; exact hp),
      getBal_addTo _ _ _ _ hnd, List.filter_cons]
    by_cases h : s.participant_id = p
    · rw [if_pos (show s.participant_id = p ∧ p ∈ keysOf net from ⟨h, hp⟩),
        if_pos (by simpa using h), List.map_cons, List.sum_cons]
      ring
    · rw [if_neg (show ¬(s.participant_id = p ∧ p ∈ keysOf net) from
        fun hc => h hc.1), if_neg (by simpa using h)]
      ring

theorem getBal_applyExpense (net : List (String × ℚ)) (e : Expense)
    (p : String) (hnd : (keysOf net).Nodup) (hp : p ∈ keysOf net) :
    getBal (applyExpense net e) p =
      getBal net p + (if e.payer_id = p then e.amount else 0) -
        ((e.shares.filter fun s => s.participant_id = p).map (·.amount)).sum := by
  rw [applyExpense,
    getBal_foldShares _ _ _ (by rw [keysOf_addTo]; exact hnd)
      (by rw [keysOf_addTo]; exact hp),
    getBal_addTo _ _ _ _ hnd]
  by_cases h : e.payer_id = p
  · rw [if_pos ⟨h, hp⟩, if_pos h]
  · rw [if_neg (by rintro ⟨hh, -⟩; exact h hh), if_neg h]

theorem getBal_applyTransfer (net : List (String × ℚ)) (t : Transfer)
    (p : String) (hnd : (keysOf net).Nodup) (hp : p ∈ keysOf net) :
    getBal (applyTransfer net t) p =
      getBal net p + (if t.from_id = p then t.amount else 0) -
        (if t.to_id = p then t.amount else 0) := by
  rw [applyTransfer,
    getBal_addTo _ _ _ _ (by rw [keysOf_addTo]; exact hnd),
    getBal_addTo _ _ _ _ hnd, keysOf_addTo]
  by_cases h1 : t.from_id = p <;> by_cases h2 : t.to_id = p
  · rw [if_pos ⟨h1, hp⟩, if_pos ⟨h2, hp⟩, if_pos h1, if_pos h2]; ring
  · rw [if_pos ⟨h1, hp⟩, if_neg (by rintro ⟨hh, -⟩; exact h2 hh),
      if_pos h1, if_neg h2]; ring
  · rw [if_neg (by rintro ⟨hh, -⟩; exact h1 hh), if_pos ⟨h2, hp⟩,
      if_neg h1, if_pos h2]; ring
  · rw [if_neg (by rintro ⟨hh, -⟩; exact h1 hh),
      if_neg (by rintro ⟨hh, -⟩; exact h2 hh), if_neg h1, if_neg h2]; ring

theorem getBal_foldExpenses (exps : List Expense) (net : List (String × ℚ))
    (p : String) (hnd : (keysOf net).Nodup) (hp : p ∈ keysOf net) :
    getBal (exps.foldl applyExpense net) p =
      getBal net p +
        (exps.map fun e => (if e.payer_id = p then e.amount else 0) -
          ((e.shares.filter fun s => s.participant_id = p).map (·.amount)).sum).sum := by
  induction exps generalizing net with
  | nil => simp
  | cons e rest ih =>
    rw [List.foldl_cons,
      ih _ (by rw [keysOf_applyExpense]; exact hnd)
        (by rw [keysOf_applyExpense]; exact hp),
      getBal_applyExpense _ _ _ hnd hp, List.map_cons, List.sum_cons]
    ring

theorem getBal_foldTransfers (trs : List Transfer) (net : List (String × ℚ))
    (p : String) (hnd : (keysOf net).Nodup) (hp : p ∈ keysOf net) :
    getBal (trs.foldl applyTransfer net) p =
      getBal net p +
        (trs.map fun t => (if t.from_id = p then t.amount else 0) -
          (if t.to_id = p then t.amount else 0)).sum := by
  induction trs generalizing net with
  | nil => simp
  | cons t rest ih =>
    rw [List.foldl_cons,
      ih _ (by rw [keysOf_applyTransfer]; exact hnd)
        (by rw [keysOf_applyTransfer]; exact hp),
      getBal_applyTransfer _ _ _ hnd hp, List.map_cons, List.sum_cons]
    ring

/-- C4 as amended: `computeNetBalances` never fails.  On every ledger —
including ledgers whose expenses or transfers reference ids absent from the
participant set — it returns a balance map keyed by the participant ids, in
which each participant's balance is the sum of exactly the contributions
addressed to that participant's own id; a reference to an absent id is
silently skipped and its money is recorded nowhere. -/
theorem c4_amended_skips_dangling (trip : Trip) (p : String)
    (hp : p ∈ keysOf (initNet trip.participants)) :
    keysOf (computeNetBalances trip) = keysOf (initNet trip.participants) ∧
    getBal (computeNetBalances trip) p =
      (trip.expenses.map fun e => (if e.payer_id = p then e.amount else 0) -
        ((e.shares.filter fun s => s.participant_id = p).map (·.amount)).sum).sum
      + (trip.transfers.map fun t => (if t.from_id = p then t.amount else 0) -
          (if t.to_id = p then t.amount else 0)).sum := by
  refine ⟨keysOf_computeNetBalances trip, ?_⟩
  have hnd := keysOf_initNet_nodup trip.participants
  rw [computeNetBalances,
    getBal_foldTransfers _ _ _
      (by rw [keysOf_foldExpenses]; exact hnd)
      (by rw [keysOf_foldExpenses]; exact hp),
    getBal_foldExpenses _ _ _ hnd hp, getBal_initNet]
  ring

/-! ## Conservation under valid appends -/

theorem sumVals_foldShares (shares : List Share) (net : List (String × ℚ))
    (hnd : (keysOf net).Nodup)
    (h : ∀ s ∈ shares, s.participant_id ∈ keysOf net) :
    sumVals (shares.foldl
        (fun n s => addTo n s.participant_id (-s.amount)) net) =
      sumVals net - (shares.map (·.amount)).sum := by
  induction shares generalizing net with
  | nil => simp
  | cons s rest ih =>
    rw [List.foldl_cons,
      ih _ (by rw [keysOf_addTo]; exact hnd)
        (fun x hx => by rw [keysOf_addTo]; exact h x (by simp [hx])),
      sumVals_addTo _ _ _ hnd, if_pos (h s (by simp)), List.map_cons,
      List.sum_cons]
    ring

theorem sumVals_applyExpense (net : List (String × ℚ)) (e : Expense)
    (hnd : (keysOf net).Nodup) (hpayer : e.payer_id ∈ keysOf net)
    (hshares : ∀ s ∈ e.shares, s.participant_id ∈ keysOf net)
    (hsum : (e.shares.map (·.amount)).sum = e.amount) :
    sumVals (applyExpense net e) = sumVals net := by
  rw [applyExpense,
    sumVals_foldShares _ _ (by rw [keysOf_addTo]; exact hnd)
      (fun s hs => by rw [keysOf_addTo]; exact hshares s hs),
    sumVals_addTo _ _ _ hnd, if_pos hpayer, hsum]
  ring

theorem sumVals_applyTransfer (net : List (String × ℚ)) (t : Transfer)
    (hnd : (keysOf net).Nodup) (hfrom : t.from_id ∈ keysOf net)
    (hto : t.to_id ∈ keysOf net) :
    sumVals (applyTransfer net t) = sumVals net := by
  rw [applyTransfer,
    sumVals_addTo _ _ _ (by rw [keysOf_addTo]; exact hnd),
    sumVals_addTo _ _ _ hnd, keysOf_addTo, if_pos hfrom, if_pos hto]
  ring

/-- Ledgers reachable by a sequence of valid appends, in the sense of the
conservation claim: participants are registered with fresh ids; an appended
expense names an existing payer, shares over existing participants summing
to the expense amount, and a positive amount; an appended transfer moves a
positive amount between two distinct existing participants. -/
inductive Built : Trip → Prop
  | start (i n l : String) (sd ed : Option String) :
      Built { id := i, name := n, location := l, start_date := sd,
              end_date := ed, participants := [], expenses := [],
              transfers := [] }
  | addParticipant {tr : Trip} (p : Participant) : Built tr →
      p.id ∉ tr.participants.map (·.id) →
      Built { tr with participants := tr.participants ++ [p] }
  | addExpense {tr : Trip} (e : Expense) : Built tr → 0 < e.amount →
      e.payer_id ∈ tr.participants.map (·.id) →
      (∀ s ∈ e.shares, s.participant_id ∈ tr.participants.map (·.id)) →
      (e.shares.map (·.amount)).sum = e.amount →
      Built { tr with expenses := tr.expenses ++ [e] }
  | addTransfer {tr : Trip} (t : Transfer) : Built tr → 0 < t.amount →
      t.from_id ∈ tr.participants.map (·.id) →
      t.to_id ∈ tr.participants.map (·.id) →
      t.from_id ≠ t.to_id →
      Built { tr with transfers := tr.transfers ++ [t] }

/-- Every ledger reachable by valid appends is referentially well-formed
with exactly-summing shares. -/
theorem built_wf {tr : Trip} (h : Built tr) :
    (∀ e ∈ tr.expenses, e.payer_id ∈ tr.participants.map (·.id) ∧
      (∀ s ∈ e.shares, s.participant_id ∈ tr.participants.map (·.id)) ∧
      (e.shares.map (·.amount)).sum = e.amount) ∧
    (∀ t ∈ tr.transfers, t.from_id ∈ tr.participants.map (·.id) ∧
      t.to_id ∈ tr.participants.map (·.id)) := by
  induction h with
  | start => exact ⟨fun e he => absurd he (List.not_mem_nil e),
      fun t ht => absurd ht (List.not_mem_nil t)⟩
  | addParticipant p hb hfresh ih =>
    refine ⟨fun e he => ?_, fun t ht => ?_⟩
    · obtain ⟨h1, h2, h3⟩ := ih.1 e he
      exact ⟨by simp only [List.map_append]; exact List.mem_append_left _ h1,
        fun s hs => by
          simp only [List.map_append]
          exact List.mem_append_left _ (h2 s hs), h3⟩
    · obtain ⟨h1, h2⟩ := ih.2 t ht
      exact ⟨by simp only [List.map_append]; exact List.mem_append_left _ h1,
        by simp only [List.map_append]; exact List.mem_append_left _ h2⟩
  | addExpense e hb hpos hpayer hshares hsum ih =>
    refine ⟨fun x hx => ?_, ih.2⟩
    rcases List.mem_append.mp hx with hx | hx
    · exact ih.1 x hx
    · obtain rfl : x = e := by simpa using hx
      exact ⟨hpayer, hshares, hsum⟩
  | addTransfer t hb hpos hfrom hto hne ih =>
    refine ⟨ih.1, fun x hx => ?_⟩
    rcases List.mem_append.mp hx with hx | hx
    · exact ih.2 x hx
    · obtain rfl : x = t := by simpa using hx
      exact ⟨hfrom, hto⟩

theorem sumVals_foldExpenses (exps : List Expense) (net : List (String × ℚ))
    (hnd : (keysOf net).Nodup)
    (h : ∀ e ∈ exps, e.payer_id ∈ keysOf net ∧
      (∀ s ∈ e.shares, s.participant_id ∈ keysOf net) ∧
      (e.shares.map (·.amount)).sum = e.amount) :
    sumVals (exps.foldl applyExpense net) = sumVals net := by
  induction exps generalizing net with
  | nil => rfl
  | cons e rest ih =>
    obtain ⟨h1, h2, h3⟩ := h e (by simp)
    rw [List.foldl_cons,
      ih _ (by rw [keysOf_applyExpense]; exact hnd)
        (fun x hx => by
          rw [keysOf_applyExpense]
          exact h x (by simp [hx])),
      sumVals_applyExpense _ _ hnd h1 h2 h3]

theorem sumVals_foldTransfers (trs : List Transfer) (net : List (String × ℚ))
    (hnd : (keysOf net).Nodup)
    (h : ∀ t ∈ trs, t.from_id ∈ keysOf net ∧ t.to_id ∈ keysOf net) :
    sumVals (trs.foldl applyTransfer net) = sumVals net := by
  induction trs generalizing net with
  | nil => rfl
  | cons t rest ih =>
    obtain ⟨h1, h2⟩ := h t (by simp)
    rw [List.foldl_cons,
      ih _ (by rw [keysOf_applyTransfer]; exact hnd)
        (fun x hx => by
          rw [keysOf_applyTransfer]
          exact h x (by simp [hx])),
      sumVals_applyTransfer _ _ hnd h1 h2]

/-- C1: after any sequence of valid appends, the participants' net balances
sum to zero (exactly, hence within the claimed `1e-6`): expenses whose
shares sum to the amount, and transfers, are zero-sum redistributions. -/
theorem c1_conservation (trip : Trip) (h : Built trip) :
    sumVals (computeNetBalances trip) = 0 ∧
    |sumVals (computeNetBalances trip)| ≤ eps := by
  obtain ⟨hexp, htr⟩ := built_wf h
  have hnd := keysOf_initNet_nodup trip.participants
  have hmem : ∀ k, k ∈ trip.participants.map (·.id) →
      k ∈ keysOf (initNet trip.participants) :=
    fun k hk => (mem_keysOf_initNet trip.participants k).mpr hk
  have hz : sumVals (computeNetBalances trip) = 0 := by
    rw [computeNetBalances,
      sumVals_foldTransfers _ _
        (by rw [keysOf_foldExpenses]; exact hnd)
        (fun t ht => by
          rw [keysOf_foldExpenses]
          exact ⟨hmem _ (htr t ht).1, hmem _ (htr t ht).2⟩),
      sumVals_foldExpenses _ _ hnd
        (fun e he => ⟨hmem _ (hexp e he).1,
          fun s hs => hmem _ ((hexp e he).2.1 s hs), (hexp e he).2.2⟩),
      sumVals_initNet]
  exact ⟨hz, by rw [hz]; simpa using le_of_lt eps_pos⟩

/-! ## Settlement sums: helper lemmas -/

theorem settleLoop_mem_ids : ∀ (fuel : Nat) (ds cs : List (String × ℚ)),
    ∀ e ∈ settleLoop fuel ds cs,
      e.1 ∈ ds.map Prod.fst ∧ e.2.1 ∈ cs.map Prod.fst := by
  intro fuel
  induction fuel with
  | zero => intro ds cs e he; simp [settleLoop] at he
  | succ n ih =>
    intro ds cs e he
    match ds, cs with
    | [], _ => simp [settleLoop] at he
    | x :: ds2, [] => simp [settleLoop] at he
    | (d, da) :: ds2, (c, ca) :: cs2 =>
      rw [settleLoop] at he
      rcases List.mem_cons.mp he with rfl | hrest
      · exact ⟨by simp, by simp⟩
      · by_cases h1 : da - min da ca < eps
        · rw [if_pos h1] at hrest
          by_cases h2 : ca - min da ca < eps
          · rw [if_pos h2] at hrest
            obtain ⟨hd, hc⟩ := ih ds2 cs2 e hrest
            exact ⟨by simp [hd], by simp [hc]⟩
          · rw [if_neg h2] at hrest
            obtain ⟨hd, hc⟩ := ih ds2 ((c, ca - min da ca) :: cs2) e hrest
            exact ⟨by simp [hd], by simpa using hc⟩
        · rw [if_neg h1] at hrest
          obtain ⟨hd, hc⟩ := ih ((d, da - min da ca) :: ds2) cs2 e hrest
          exact ⟨by simpa using hd, by simp [hc]⟩

theorem rowSum_cons (x : String × String × ℚ)
    (l : List (String × String × ℚ)) (d : String) :
    rowSum (x :: l) d = (if x.1 = d then x.2.2 else 0) + rowSum l d := by
  rw [rowSum, List.filter_cons]
  by_cases h : x.1 = d <;> simp [h, rowSum]

theorem colSum_cons (x : String × String × ℚ)
    (l : List (String × String × ℚ)) (c : String) :
    colSum (x :: l) c = (if x.2.1 = c then x.2.2 else 0) + colSum l c := by
  rw [colSum, List.filter_cons]
  by_cases h : x.2.1 = c <;> simp [h, colSum]

theorem rowSum_eq_zero {fuel : Nat} {ds cs : List (String × ℚ)} {d : String}
    (hd : d ∉ ds.map Prod.fst) : rowSum (settleLoop fuel ds cs) d = 0 := by
  rw [rowSum]
  have hnil : (settleLoop fuel ds cs).filter (fun e => e.1 = d) = [] := by
    refine List.filter_eq_nil_iff.mpr fun e he => ?_
    have hmem := (settleLoop_mem_ids fuel ds cs e he).1
    simp only [decide_eq_true_eq]
    rintro rfl
    exact hd hmem
  rw [hnil]
  rfl

theorem colSum_eq_zero {fuel : Nat} {ds cs : List (String × ℚ)} {c : String}
    (hc : c ∉ cs.map Prod.fst) : colSum (settleLoop fuel ds cs) c = 0 := by
  rw [colSum]
  have hnil : (settleLoop fuel ds cs).filter (fun e => e.2.1 = c) = [] := by
    refine List.filter_eq_nil_iff.mpr fun e he => ?_
    have hmem := (settleLoop_mem_ids fuel ds cs e he).2
    simp only [decide_eq_true_eq]
    rintro rfl
    exact hc hmem
  rw [hnil]
  rfl

theorem mem_le_totalAmt {l : List (String × ℚ)} {d : String} {a : ℚ}
    (h : (d, a) ∈ l) (hpos : ∀ x ∈ l, 0 ≤ x.2) : a ≤ totalAmt l := by
  induction l with
  | nil => cases h
  | cons x rest ih =>
    rw [totalAmt, List.map_cons, List.sum_cons]
    rcases List.mem_cons.mp h with rfl | hmem
    · have hrest : (0:ℚ) ≤ totalAmt rest := by
        rw [totalAmt]
        refine List.sum_nonneg fun v hv => ?_
        obtain ⟨y, hy, rfl⟩ := List.mem_map.mp hv
        exact hpos y (by simp [hy])
      rw [totalAmt] at hrest
      simp only
      linarith
    · have hih := ih hmem fun x hx => hpos x (by simp [hx])
      have hx0 := hpos x (by simp)
      rw [totalAmt] at hih
      linarith

theorem totalAmt_nonneg {l : List (String × ℚ)}
    (hpos : ∀ x ∈ l, 0 ≤ x.2) : 0 ≤ totalAmt l := by
  rw [totalAmt]
  refine List.sum_nonneg fun v hv => ?_
  obtain ⟨y, hy, rfl⟩ := List.mem_map.mp hv
  exact hpos y hy

theorem max_zero_le {x y e : ℚ} (h : x ≤ y + e) (he : 0 ≤ e) :
    max x 0 ≤ max y 0 + e :=
  max_le (h.trans (add_le_add_right (le_max_left y 0) e))
    (add_nonneg (le_max_right y 0) he)

theorem totalAmt_cons (x : String × ℚ) (l : List (String × ℚ)) :
    totalAmt (x :: l) = x.2 + totalAmt l := by
  simp [totalAmt]

theorem eps_le_bound {M k : ℚ} (hM : 0 ≤ M) (hk : 2 ≤ k) :
    eps ≤ M + k * eps := by
  have h2 : 2 * eps ≤ k * eps :=
    mul_le_mul_of_nonneg_right hk (le_of_lt eps_pos)
  have := eps_pos
  linarith

theorem max_bound_step {X Y j k m : ℚ} (hXY : X ≤ Y + m * eps)
    (hm : 0 ≤ m) (hjk : j + m ≤ k) :
    max X 0 + j * eps ≤ max Y 0 + k * eps := by
  have h1 : max X 0 ≤ max Y 0 + m * eps :=
    max_zero_le hXY (mul_nonneg hm (le_of_lt eps_pos))
  have h2 : j * eps + m * eps ≤ k * eps := by
    rw [← add_mul]
    exact mul_le_mul_of_nonneg_right hjk (le_of_lt eps_pos)
  linarith

/-- Row sums of the settlement loop: each debtor is never over-settled, and
the shortfall against its magnitude is controlled by the sign imbalance of
the two lists plus one `eps` per list entry (one sub-`eps` residual can be
dropped each time a cursor advances). -/
theorem settle_row_bound : ∀ (fuel : Nat) (ds cs : List (String × ℚ)),
    ds.length + cs.length ≤ fuel →
    (∀ x ∈ ds, 0 ≤ x.2) →
    (ds.map Prod.fst).Nodup →
    ∀ d a, (d, a) ∈ ds →
      rowSum (settleLoop fuel ds cs) d ≤ a ∧
      a - rowSum (settleLoop fuel ds cs) d ≤
        max (totalAmt ds - totalAmt cs) 0 +
          ((ds.length : ℚ) + (cs.length : ℚ)) * eps := by
  intro fuel
  induction fuel with
  | zero =>
    intro ds cs hf _ _ d a hmem
    match ds with
    | [] => cases hmem
    | x :: t => simp at hf
  | succ n ih =>
    intro ds cs hf hpos hnd d a hmem
    match ds, cs with
    | [], _ => cases hmem
    | (d0, da) :: ds2, [] =>
      rw [show settleLoop (n + 1) ((d0, da) :: ds2) [] = [] from rfl]
      have h0 : rowSum [] d = 0 := rfl
      have ha : a ≤ totalAmt ((d0, da) :: ds2) := mem_le_totalAmt hmem hpos
      have hmax : totalAmt ((d0, da) :: ds2) - totalAmt [] ≤
          max (totalAmt ((d0, da) :: ds2) - totalAmt ([] : List (String × ℚ))) 0 :=
        le_max_left _ _
      have hTc : totalAmt ([] : List (String × ℚ)) = 0 := rfl
      have hlen : (0:ℚ) ≤ ((((d0, da) :: ds2).length : ℚ) +
          (([] : List (String × ℚ)).length : ℚ)) * eps := by
        have := eps_pos
        positivity
      refine ⟨?_, ?_⟩
      · rw [h0]; exact hpos (d, a) hmem
      · rw [h0]
        linarith
    | (d0, da) :: ds2, (c0, ca) :: cs2 =>
      have hdl : ((d0, da) :: ds2).length = ds2.length + 1 := rfl
      have hcl : ((c0, ca) :: cs2).length = cs2.length + 1 := rfl
      have hfa : ds2.length + cs2.length ≤ n := by
        rw [hdl, hcl] at hf; omega
      have hfb : ds2.length + (cs2.length + 1) ≤ n := by
        rw [hdl, hcl] at hf; omega
      have hfc : (ds2.length + 1) + cs2.length ≤ n := by
        rw [hdl, hcl] at hf; omega
      have hminl : min da ca ≤ da := min_le_left _ _
      have hminr : min da ca ≤ ca := min_le_right _ _
      have heps := eps_pos
      have hndc : d0 ∉ ds2.map Prod.fst ∧ (ds2.map Prod.fst).Nodup := by
        rw [List.map_cons, List.nodup_cons] at hnd; exact hnd
      rw [settleLoop]
      by_cases h1 : da - min da ca < eps
      · by_cases h2 : ca - min da ca < eps
        · rw [if_pos h1, if_pos h2, rowSum_cons]
          rcases List.mem_cons.mp hmem with heq | hmem2
          · injection heq with hd1 hd2
            subst hd1; subst hd2
            have hz : rowSum (settleLoop n ds2 cs2) d = 0 :=
              rowSum_eq_zero hndc.1
            rw [if_pos rfl, hz]
            have hbnd : eps ≤ max (totalAmt ((d, a) :: ds2) -
                totalAmt ((c0, ca) :: cs2)) 0 +
                ((((d, a) :: ds2).length : ℚ) +
                  (((c0, ca) :: cs2).length : ℚ)) * eps := by
              refine eps_le_bound (le_max_right _ _) ?_
              rw [hdl, hcl]
              push_cast
              linarith [Nat.cast_nonneg (α := ℚ) ds2.length,
                Nat.cast_nonneg (α := ℚ) cs2.length]
            exact ⟨by linarith, by linarith⟩
          · have hdmem : d ∈ ds2.map Prod.fst :=
              List.mem_map_of_mem Prod.fst hmem2
            have hne : ¬(d0 = d) := fun h => hndc.1 (h ▸ hdmem)
            rw [if_neg hne, zero_add]
            obtain ⟨hle, hbd⟩ := ih ds2 cs2 hfa
              (fun x hx => hpos x (by simp [hx])) hndc.2 d a hmem2
            refine ⟨hle, hbd.trans ?_⟩
            rw [totalAmt_cons, totalAmt_cons, hdl, hcl]
            push_cast
            have hca2 : 0 ≤ ca - min da ca := by linarith
            have hda2 : 0 ≤ da - min da ca := by linarith
            have := max_bound_step
              (X := totalAmt ds2 - totalAmt cs2)
              (Y := da + totalAmt ds2 - (ca + totalAmt cs2))
              (j := (ds2.length : ℚ) + (cs2.length : ℚ))
              (k := (ds2.length : ℚ) + 1 + ((cs2.length : ℚ) + 1))
              (m := 1) (by linarith) (by norm_num) (by linarith)
            linarith
        · rw [if_pos h1, if_neg h2, rowSum_cons]
          rcases List.mem_cons.mp hmem with heq | hmem2
          · injection heq with hd1 hd2
            subst hd1; subst hd2
            have hz : rowSum (settleLoop n ds2 ((c0, ca - min a ca) :: cs2)) d = 0 :=
              rowSum_eq_zero hndc.1
            rw [if_pos rfl, hz]
            have hbnd : eps ≤ max (totalAmt ((d, a) :: ds2) -
                totalAmt ((c0, ca) :: cs2)) 0 +
                ((((d, a) :: ds2).length : ℚ) +
                  (((c0, ca) :: cs2).length : ℚ)) * eps := by
              refine eps_le_bound (le_max_right _ _) ?_
              rw [hdl, hcl]
              push_cast
              linarith [Nat.cast_nonneg (α := ℚ) ds2.length,
                Nat.cast_nonneg (α := ℚ) cs2.length]
            exact ⟨by linarith, by linarith⟩
          · have hdmem : d ∈ ds2.map Prod.fst :=
              List.mem_map_of_mem Prod.fst hmem2
            have hne : ¬(d0 = d) := fun h => hndc.1 (h ▸ hdmem)
            rw [if_neg hne, zero_add]
            obtain ⟨hle, hbd⟩ := ih ds2 ((c0, ca - min da ca) :: cs2) hfb
              (fun x hx => hpos x (by simp [hx])) hndc.2 d a hmem2
            push_cast [List.length_cons] at hbd
            refine ⟨hle, hbd.trans ?_⟩
            rw [totalAmt_cons, totalAmt_cons, totalAmt_cons, hdl, hcl]
            push_cast
            have hda2 : 0 ≤ da - min da ca := by linarith
            have := max_bound_step
              (X := totalAmt ds2 - (ca - min da ca + totalAmt cs2))
              (Y := da + totalAmt ds2 - (ca + totalAmt cs2))
              (j := (ds2.length : ℚ) + ((cs2.length : ℚ) + 1))
              (k := (ds2.length : ℚ) + 1 + ((cs2.length : ℚ) + 1))
              (m := 0) (by linarith) (by norm_num) (by linarith)
            linarith
      · have ht : min da ca = ca := by
          rcases min_cases da ca with ⟨hmin, -⟩ | ⟨hmin, -⟩
          · exfalso
            apply h1
            rw [hmin]
            simpa using eps_pos
          · exact hmin
        rw [if_neg h1, rowSum_cons]
        rcases List.mem_cons.mp hmem with heq | hmem2
        · injection heq with hd1 hd2
          subst hd1; subst hd2
          rw [if_pos rfl]
          obtain ⟨hle, hbd⟩ := ih ((d, a - min a ca) :: ds2) cs2 hfc
            (fun x hx => by
              rcases List.mem_cons.mp hx with rfl | hx2
              · simpa using by linarith [hminl]
              · exact hpos x (by simp [hx2]))
            (by rw [List.map_cons]; rw [List.map_cons] at hnd; exact hnd)
            d (a - min a ca) (by simp)
          constructor
          · linarith
          · have hXeq : totalAmt ((d, a - min a ca) :: ds2) - totalAmt cs2 =
                totalAmt ((d, a) :: ds2) - totalAmt ((c0, ca) :: cs2) := by
              rw [totalAmt_cons, totalAmt_cons, totalAmt_cons, ht]
              ring
            rw [hXeq] at hbd
            have hlen2 : ((((d, a - min a ca) :: ds2).length : ℚ) +
                ((cs2.length : ℚ))) * eps ≤
                ((((d, a) :: ds2).length : ℚ) +
                  (((c0, ca) :: cs2).length : ℚ)) * eps := by
              push_cast [List.length_cons]
              exact mul_le_mul_of_nonneg_right (by linarith) (le_of_lt heps)
            linarith
        · have hdmem : d ∈ ds2.map Prod.fst :=
            List.mem_map_of_mem Prod.fst hmem2
          have hne : ¬(d0 = d) := fun h => hndc.1 (h ▸ hdmem)
          rw [if_neg hne, zero_add]
          obtain ⟨hle, hbd⟩ := ih ((d0, da - min da ca) :: ds2) cs2 hfc
            (fun x hx => by
              rcases List.mem_cons.mp hx with rfl | hx2
              · simpa using by linarith [hminl]
              · exact hpos x (by simp [hx2]))
            (by rw [List.map_cons]; rw [List.map_cons] at hnd; exact hnd)
            d a (by simp [hmem2])
          refine ⟨hle, hbd.trans ?_⟩
          have hXeq : totalAmt ((d0, da - min da ca) :: ds2) - totalAmt cs2 =
              totalAmt ((d0, da) :: ds2) - totalAmt ((c0, ca) :: cs2) := by
            rw [totalAmt_cons, totalAmt_cons, totalAmt_cons, ht]
            ring
          rw [hXeq]
          have hlen2 : ((((d0, da - min da ca) :: ds2).length : ℚ) +
              ((cs2.length : ℚ))) * eps ≤
              ((((d0, da) :: ds2).length : ℚ) +
                (((c0, ca) :: cs2).length : ℚ)) * eps := by
            push_cast [List.length_cons]
            exact mul_le_mul_of_nonneg_right (by linarith) (le_of_lt heps)
          linarith

/-- Column sums of the settlement loop: each creditor is never over-paid,
and the shortfall against its magnitude is controlled by the sign imbalance
plus one `eps` per list entry. -/
theorem settle_col_bound : ∀ (fuel : Nat) (ds cs : List (String × ℚ)),
    ds.length + cs.length ≤ fuel →
    (∀ x ∈ cs, 0 ≤ x.2) →
    (cs.map Prod.fst).Nodup →
    ∀ c a, (c, a) ∈ cs →
      colSum (settleLoop fuel ds cs) c ≤ a ∧
      a - colSum (settleLoop fuel ds cs) c ≤
        max (totalAmt cs - totalAmt ds) 0 +
          ((ds.length : ℚ) + (cs.length : ℚ)) * eps := by
  intro fuel
  induction fuel with
  | zero =>
    intro ds cs hf _ _ c a hmem
    match cs with
    | [] => cases hmem
    | x :: t => simp at hf
  | succ n ih =>
    intro ds cs hf hpos hnd c a hmem
    match ds, cs with
    | _, [] => cases hmem
    | [], x :: cs2 =>
      rw [show settleLoop (n + 1) [] (x :: cs2) = [] from rfl]
      have h0 : colSum [] c = 0 := rfl
      have ha : a ≤ totalAmt (x :: cs2) := mem_le_totalAmt hmem hpos
      have hTd : totalAmt ([] : List (String × ℚ)) = 0 := rfl
      have hlen : (0:ℚ) ≤ ((([] : List (String × ℚ)).length : ℚ) +
          ((x :: cs2).length : ℚ)) * eps := by
        have := eps_pos
        positivity
      have hmax : totalAmt (x :: cs2) - totalAmt ([] : List (String × ℚ)) ≤
          max (totalAmt (x :: cs2) - totalAmt ([] : List (String × ℚ))) 0 :=
        le_max_left _ _
      exact ⟨h0 ▸ hpos (c, a) hmem, by rw [h0]; linarith⟩
    | (d0, da) :: ds2, (c0, ca) :: cs2 =>
      have hdl : ((d0, da) :: ds2).length = ds2.length + 1 := rfl
      have hcl : ((c0, ca) :: cs2).length = cs2.length + 1 := rfl
      have hfa : ds2.length + cs2.length ≤ n := by
        rw [hdl, hcl] at hf; omega
      have hfb : ds2.length + (cs2.length + 1) ≤ n := by
        rw [hdl, hcl] at hf; omega
      have hfc : (ds2.length + 1) + cs2.length ≤ n := by
        rw [hdl, hcl] at hf; omega
      have hminl : min da ca ≤ da := min_le_left _ _
      have hminr : min da ca ≤ ca := min_le_right _ _
      have heps := eps_pos
      have hndc : c0 ∉ cs2.map Prod.fst ∧ (cs2.map Prod.fst).Nodup := by
        rw [List.map_cons, List.nodup_cons] at hnd; exact hnd
      rw [settleLoop]
      by_cases h1 : da - min da ca < eps
      · by_cases h2 : ca - min da ca < eps
        · rw [if_pos h1, if_pos h2, colSum_cons]
          rcases List.mem_cons.mp hmem with heq | hmem2
          · injection heq with hc1 hc2
            subst hc1; subst hc2
            have hz : colSum (settleLoop n ds2 cs2) c = 0 :=
              colSum_eq_zero hndc.1
            rw [if_pos rfl, hz]
            have hbnd : eps ≤ max (totalAmt ((c, a) :: cs2) -
                totalAmt ((d0, da) :: ds2)) 0 +
                ((((d0, da) :: ds2).length : ℚ) +
                  (((c, a) :: cs2).length : ℚ)) * eps := by
              refine eps_le_bound (le_max_right _ _) ?_
              push_cast [List.length_cons]
              linarith [Nat.cast_nonneg (α := ℚ) ds2.length,
                Nat.cast_nonneg (α := ℚ) cs2.length]
            exact ⟨by linarith, by linarith⟩
          · have hcmem : c ∈ cs2.map Prod.fst :=
              List.mem_map_of_mem Prod.fst hmem2
            have hne : ¬(c0 = c) := fun h => hndc.1 (h ▸ hcmem)
            rw [if_neg hne, zero_add]
            obtain ⟨hle, hbd⟩ := ih ds2 cs2 hfa
              (fun x hx => hpos x (by simp [hx])) hndc.2 c a hmem2
            refine ⟨hle, hbd.trans ?_⟩
            rw [totalAmt_cons, totalAmt_cons]
            push_cast [List.length_cons]
            have hda2 : 0 ≤ da - min da ca := by linarith
            have hca2 : 0 ≤ ca - min da ca := by linarith
            have := max_bound_step
              (X := totalAmt cs2 - totalAmt ds2)
              (Y := ca + totalAmt cs2 - (da + totalAmt ds2))
              (j := (ds2.length : ℚ) + (cs2.length : ℚ))
              (k := (ds2.length : ℚ) + 1 + ((cs2.length : ℚ) + 1))
              (m := 1) (by linarith) (by norm_num) (by linarith)
            linarith
        · rw [if_pos h1, if_neg h2, colSum_cons]
          rcases List.mem_cons.mp hmem with heq | hmem2
          · injection heq with hc1 hc2
            subst hc1; subst hc2
            rw [if_pos rfl]
            obtain ⟨hle, hbd⟩ := ih ds2 ((c, a - min da a) :: cs2) hfb
              (fun x hx => by
                rcases List.mem_cons.mp hx with rfl | hx2
                · simpa using by linarith
                · exact hpos x (by simp [hx2]))
              (by rw [List.map_cons]; rw [List.map_cons] at hnd; exact hnd)
              c (a - min da a) (by simp)
            push_cast [List.length_cons] at hbd
            constructor
            · linarith
            · have hXeq : totalAmt ((c, a - min da a) :: cs2) - totalAmt ds2 =
                  (totalAmt ((c, a) :: cs2) - totalAmt ((d0, da) :: ds2))
                    + (da - min da a) := by
                rw [totalAmt_cons, totalAmt_cons, totalAmt_cons]
                ring
              rw [hXeq] at hbd
              have hstep := max_bound_step
                (X := (totalAmt ((c, a) :: cs2) -
                  totalAmt ((d0, da) :: ds2)) + (da - min da a))
                (Y := totalAmt ((c, a) :: cs2) - totalAmt ((d0, da) :: ds2))
                (j := (ds2.length : ℚ) + ((cs2.length : ℚ) + 1))
                (k := ((ds2.length : ℚ) + 1) + ((cs2.length : ℚ) + 1))
                (m := 1) (by linarith) (by norm_num) (by linarith)
              push_cast [List.length_cons]
              linarith
          · have hcmem : c ∈ cs2.map Prod.fst :=
              List.mem_map_of_mem Prod.fst hmem2
            have hne : ¬(c0 = c) := fun h => hndc.1 (h ▸ hcmem)
            rw [if_neg hne, zero_add]
            obtain ⟨hle, hbd⟩ := ih ds2 ((c0, ca - min da ca) :: cs2) hfb
              (fun x hx => by
                rcases List.mem_cons.mp hx with rfl | hx2
                · simpa using by linarith
                · exact hpos x (by simp [hx2]))
              (by rw [List.map_cons]; rw [List.map_cons] at hnd; exact hnd)
              c a (by simp [hmem2])
            push_cast [List.length_cons] at hbd
            refine ⟨hle, hbd.trans ?_⟩
            have hXeq : totalAmt ((c0, ca - min da ca) :: cs2) - totalAmt ds2 =
                (totalAmt ((c0, ca) :: cs2) - totalAmt ((d0, da) :: ds2))
                  + (da - min da ca) := by
              rw [totalAmt_cons, totalAmt_cons, totalAmt_cons]
              ring
            rw [hXeq]
            have hstep := max_bound_step
              (X := (totalAmt ((c0, ca) :: cs2) -
                totalAmt ((d0, da) :: ds2)) + (da - min da ca))
              (Y := totalAmt ((c0, ca) :: cs2) - totalAmt ((d0, da) :: ds2))
              (j := (ds2.length : ℚ) + ((cs2.length : ℚ) + 1))
              (k := ((ds2.length : ℚ) + 1) + ((cs2.length : ℚ) + 1))
              (m := 1) (by linarith) (by norm_num) (by linarith)
            push_cast [List.length_cons]
            linarith
      · have ht : min da ca = ca := by
          rcases min_cases da ca with ⟨hmin, -⟩ | ⟨hmin, -⟩
          · exfalso
            apply h1
            rw [hmin]
            simpa using eps_pos
          · exact hmin
        rw [if_neg h1, colSum_cons]
        rcases List.mem_cons.mp hmem with heq | hmem2
        · injection heq with hc1 hc2
          subst hc1; subst hc2
          have hz : colSum
              (settleLoop n ((d0, da - min da a) :: ds2) cs2) c = 0 :=
            colSum_eq_zero hndc.1
          rw [if_pos rfl, hz, ht]
          have hmax0 : (0:ℚ) ≤ max (totalAmt ((c, a) :: cs2) -
              totalAmt ((d0, da) :: ds2)) 0 := le_max_right _ _
          have hlen : (0:ℚ) ≤ ((((d0, da) :: ds2).length : ℚ) +
              (((c, a) :: cs2).length : ℚ)) * eps := by positivity
          exact ⟨by linarith, by linarith⟩
        · have hcmem : c ∈ cs2.map Prod.fst :=
            List.mem_map_of_mem Prod.fst hmem2
          have hne : ¬(c0 = c) := fun h => hndc.1 (h ▸ hcmem)
          rw [if_neg hne, zero_add]
          obtain ⟨hle, hbd⟩ := ih ((d0, da - min da ca) :: ds2) cs2 hfc
            (fun x hx => hpos x (by simp [hx])) hndc.2 c a hmem2
          push_cast [List.length_cons] at hbd
          refine ⟨hle, hbd.trans ?_⟩
          have hXeq : totalAmt cs2 - totalAmt ((d0, da - min da ca) :: ds2) =
              totalAmt ((c0, ca) :: cs2) - totalAmt ((d0, da) :: ds2) := by
            rw [totalAmt_cons, totalAmt_cons, totalAmt_cons, ht]
            ring
          rw [hXeq]
          push_cast [List.length_cons]
          have hmono : (((ds2.length : ℚ) + 1) + (cs2.length : ℚ)) * eps ≤
              (((ds2.length : ℚ) + 1) + ((cs2.length : ℚ) + 1)) * eps :=
            mul_le_mul_of_nonneg_right (by linarith) (le_of_lt heps)
          linarith

theorem sum_map_neg_snd (l : List (String × ℚ)) :
    ((l.map fun e => (e.1, -e.2)).map (·.2)).sum = -((l.map (·.2)).sum) := by
  induction l with
  | nil => simp
  | cons x rest ih =>
    simp only [List.map_cons, List.sum_cons, ih]
    ring

theorem totalAmt_debtorsOf (net : List (String × ℚ)) :
    totalAmt (debtorsOf net) =
      -(((net.filter fun e => e.2 < -eps).map (·.2)).sum) := by
  rw [debtorsOf, totalAmt]
  exact sum_map_neg_snd _

theorem totalAmt_creditorsOf (net : List (String × ℚ)) :
    totalAmt (creditorsOf net) =
      ((net.filter fun e => e.2 > eps).map (·.2)).sum := rfl

theorem net_sum_partition (net : List (String × ℚ)) :
    (net.map (·.2)).sum =
      ((net.filter fun e => e.2 < -eps).map (·.2)).sum +
      ((net.filter fun e => e.2 > eps).map (·.2)).sum +
      ((net.filter fun e => -eps ≤ e.2 ∧ e.2 ≤ eps).map (·.2)).sum := by
  induction net with
  | nil => simp
  | cons x rest ih =>
    have heps := eps_pos
    by_cases h1 : x.2 < -eps
    · have h2 : ¬x.2 > eps := by push_neg; linarith
      have h3 : ¬(-eps ≤ x.2 ∧ x.2 ≤ eps) := by rintro ⟨ha, -⟩; linarith
      simp [List.filter_cons, h1, h2, h3] at ih ⊢
      linarith [ih]
    · by_cases h2 : x.2 > eps
      · have h3 : ¬(-eps ≤ x.2 ∧ x.2 ≤ eps) := by rintro ⟨-, hb⟩; linarith
        simp [List.filter_cons, h1, h2, h3] at ih ⊢
        linarith [ih]
      · have h3 : -eps ≤ x.2 ∧ x.2 ≤ eps := by
          push_neg at h1 h2
          exact ⟨by linarith, by linarith⟩
        simp [List.filter_cons, h1, h2, h3] at ih ⊢
        linarith [ih]

theorem net_length_partition (net : List (String × ℚ)) :
    net.length =
      (net.filter fun e => e.2 < -eps).length +
      (net.filter fun e => e.2 > eps).length +
      (net.filter fun e => -eps ≤ e.2 ∧ e.2 ≤ eps).length := by
  induction net with
  | nil => simp
  | cons x rest ih =>
    have heps := eps_pos
    by_cases h1 : x.2 < -eps
    · have h2 : ¬x.2 > eps := by push_neg; linarith
      have h3 : ¬(-eps ≤ x.2 ∧ x.2 ≤ eps) := by rintro ⟨ha, -⟩; linarith
      simp [List.filter_cons, h1, h2, h3] at ih ⊢
      omega
    · by_cases h2 : x.2 > eps
      · have h3 : ¬(-eps ≤ x.2 ∧ x.2 ≤ eps) := by rintro ⟨-, hb⟩; linarith
        simp [List.filter_cons, h1, h2, h3] at ih ⊢
        omega
      · have h3 : -eps ≤ x.2 ∧ x.2 ≤ eps := by
          push_neg at h1 h2
          exact ⟨by linarith, by linarith⟩
        simp [List.filter_cons, h1, h2, h3] at ih ⊢
        omega

theorem mid_sum_bound (l : List (String × ℚ))
    (h : ∀ x ∈ l, -eps ≤ x.2 ∧ x.2 ≤ eps) :
    |(l.map (·.2)).sum| ≤ (l.length : ℚ) * eps := by
  induction l with
  | nil => simp
  | cons x rest ih =>
    have hx := h x (by simp)
    have hr := ih fun y hy => h y (by simp [hy])
    rw [List.map_cons, List.sum_cons]
    calc |x.2 + (rest.map (·.2)).sum|
        ≤ |x.2| + |(rest.map (·.2)).sum| := abs_add _ _
      _ ≤ eps + (rest.length : ℚ) * eps :=
        add_le_add (abs_le.mpr ⟨hx.1, hx.2⟩) hr
      _ = ((x :: rest).length : ℚ) * eps := by
        push_cast [List.length_cons]
        ring

theorem debtorsSorted_totalAmt (net : List (String × ℚ)) :
    totalAmt (debtorsSorted net) = totalAmt (debtorsOf net) :=
  List.Perm.sum_eq ((sortDesc_perm (debtorsOf net)).map (·.2))

theorem creditorsSorted_totalAmt (net : List (String × ℚ)) :
    totalAmt (creditorsSorted net) = totalAmt (creditorsOf net) :=
  List.Perm.sum_eq ((sortDesc_perm (creditorsOf net)).map (·.2))

theorem debtorsSorted_length (net : List (String × ℚ)) :
    (debtorsSorted net).length = (net.filter fun e => e.2 < -eps).length := by
  rw [debtorsSorted, (sortDesc_perm (debtorsOf net)).length_eq, debtorsOf,
    List.length_map]

theorem creditorsSorted_length (net : List (String × ℚ)) :
    (creditorsSorted net).length = (net.filter fun e => e.2 > eps).length := by
  rw [creditorsSorted, (sortDesc_perm (creditorsOf net)).length_eq,
    creditorsOf]

theorem debtorsSorted_ids_nodup (net : List (String × ℚ))
    (hnd : (net.map Prod.fst).Nodup) :
    ((debtorsSorted net).map Prod.fst).Nodup := by
  have hperm : List.Perm ((debtorsSorted net).map Prod.fst)
      ((debtorsOf net).map Prod.fst) := (sortDesc_perm _).map _
  rw [hperm.nodup_iff, debtorsOf, List.map_map]
  have hcomp : (Prod.fst ∘ fun e : String × ℚ => (e.1, -e.2)) = Prod.fst := rfl
  rw [hcomp]
  exact List.Nodup.sublist (List.Sublist.map _ (List.filter_sublist _)) hnd

theorem creditorsSorted_ids_nodup (net : List (String × ℚ))
    (hnd : (net.map Prod.fst).Nodup) :
    ((creditorsSorted net).map Prod.fst).Nodup := by
  have hperm : List.Perm ((creditorsSorted net).map Prod.fst)
      ((creditorsOf net).map Prod.fst) := (sortDesc_perm _).map _
  rw [hperm.nodup_iff, creditorsOf]
  exact List.Nodup.sublist (List.Sublist.map _ (List.filter_sublist _)) hnd

theorem debtorsSorted_amounts (net : List (String × ℚ)) :
    ∀ x ∈ debtorsSorted net, 0 ≤ x.2 := by
  intro x hx
  have hx2 : x ∈ debtorsOf net := ((sortDesc_perm _).mem_iff).mp hx
  obtain ⟨y, hy, hxy⟩ := List.mem_map.mp hx2
  have hcond := (List.mem_filter.mp hy).2
  simp only [decide_eq_true_eq] at hcond
  rw [← hxy]
  have := eps_pos
  simpa using by linarith

theorem creditorsSorted_amounts (net : List (String × ℚ)) :
    ∀ x ∈ creditorsSorted net, 0 ≤ x.2 := by
  intro x hx
  have hx2 : x ∈ creditorsOf net := ((sortDesc_perm _).mem_iff).mp hx
  have hcond := (List.mem_filter.mp hx2).2
  simp only [decide_eq_true_eq] at hcond
  have := eps_pos
  linarith

theorem mem_debtorsSorted {net : List (String × ℚ)} {p : String} {b : ℚ}
    (hb : (p, b) ∈ net) (hlt : b < -eps) : (p, -b) ∈ debtorsSorted net := by
  refine ((sortDesc_perm _).mem_iff).mpr ?_
  rw [debtorsOf]
  exact List.mem_map.mpr
    ⟨(p, b), List.mem_filter.mpr ⟨hb, by simpa using hlt⟩, rfl⟩

theorem mem_creditorsSorted {net : List (String × ℚ)} {p : String} {b : ℚ}
    (hb : (p, b) ∈ net) (hgt : eps < b) : (p, b) ∈ creditorsSorted net := by
  refine ((sortDesc_perm _).mem_iff).mpr ?_
  exact List.mem_filter.mpr ⟨hb, by simpa using hgt⟩

/-- C3 as amended: under the zero-sum precondition, every debtor has a row
in the matrix, and the row sum of each debtor (resp. column sum of each
creditor) matches its magnitude within `N * 1e-6`, where `N` is the number
of entries in the balances map — one `eps`-sized residual can be dropped
for each entry, so the per-entry tolerance `1e-6` of the original claim
must be scaled by `N`. -/
theorem c3_amended_matrix_sums (net : List (String × ℚ))
    (hsum : (net.map (·.2)).sum = 0) (hnd : (net.map Prod.fst).Nodup) :
    (∀ p b, (p, b) ∈ net → b < -eps →
      p ∈ (computeDebtMatrix net).rows ∧
      |rowSum (computeDebtMatrix net).entries p - (-b)| ≤
        (net.length : ℚ) * eps) ∧
    (∀ p b, (p, b) ∈ net → eps < b →
      |colSum (computeDebtMatrix net).entries p - b| ≤
        (net.length : ℚ) * eps) := by
  have heps := eps_pos
  have hpart := net_sum_partition net
  have hlenpart := net_length_partition net
  have hMbound : |((net.filter fun e => -eps ≤ e.2 ∧ e.2 ≤ eps).map (·.2)).sum|
      ≤ ((net.filter fun e => -eps ≤ e.2 ∧ e.2 ≤ eps).length : ℚ) * eps := by
    refine mid_sum_bound _ fun x hx => ?_
    have := (List.mem_filter.mp hx).2
    simpa using this
  have hTd : totalAmt (debtorsSorted net) =
      -(((net.filter fun e => e.2 < -eps).map (·.2)).sum) := by
    rw [debtorsSorted_totalAmt, totalAmt_debtorsOf]
  have hTc : totalAmt (creditorsSorted net) =
      ((net.filter fun e => e.2 > eps).map (·.2)).sum := by
    rw [creditorsSorted_totalAmt, totalAmt_creditorsOf]
  have hlenQ : (net.length : ℚ) =
      ((net.filter fun e => e.2 < -eps).length : ℚ) +
      ((net.filter fun e => e.2 > eps).length : ℚ) +
      ((net.filter fun e => -eps ≤ e.2 ∧ e.2 ≤ eps).length : ℚ) := by
    exact_mod_cast congrArg (fun n : ℕ => (n : ℚ)) hlenpart
  have hcast : ((debtorsSorted net).length : ℚ) +
      ((creditorsSorted net).length : ℚ) =
      ((net.filter fun e => e.2 < -eps).length : ℚ) +
      ((net.filter fun e => e.2 > eps).length : ℚ) := by
    rw [debtorsSorted_length, creditorsSorted_length]
  have hMeqD : totalAmt (debtorsSorted net) - totalAmt (creditorsSorted net) =
      ((net.filter fun e => -eps ≤ e.2 ∧ e.2 ≤ eps).map (·.2)).sum := by
    rw [hTd, hTc]
    linarith
  have hmaxD : max (totalAmt (debtorsSorted net) -
      totalAmt (creditorsSorted net)) 0 ≤
      ((net.filter fun e => -eps ≤ e.2 ∧ e.2 ≤ eps).length : ℚ) * eps := by
    rw [hMeqD]
    exact le_trans (max_le (le_abs_self _) (abs_nonneg _)) hMbound
  have hmaxC : max (totalAmt (creditorsSorted net) -
      totalAmt (debtorsSorted net)) 0 ≤
      ((net.filter fun e => -eps ≤ e.2 ∧ e.2 ≤ eps).length : ℚ) * eps := by
    have : totalAmt (creditorsSorted net) - totalAmt (debtorsSorted net) =
        -(((net.filter fun e => -eps ≤ e.2 ∧ e.2 ≤ eps).map (·.2)).sum) := by
      rw [hTd, hTc]
      linarith
    rw [this]
    exact le_trans (max_le (neg_le_abs _) (abs_nonneg _)) hMbound
  constructor
  · intro p b hb hlt
    have hmem := mem_debtorsSorted hb hlt
    refine ⟨List.mem_map.mpr ⟨(p, -b), hmem, rfl⟩, ?_⟩
    obtain ⟨hle, hbd⟩ := settle_row_bound
      ((debtorsSorted net).length + (creditorsSorted net).length)
      (debtorsSorted net) (creditorsSorted net) (le_refl _)
      (debtorsSorted_amounts net) (debtorsSorted_ids_nodup net hnd)
      p (-b) hmem
    rw [abs_sub_comm, abs_of_nonneg (by
      show (0:ℚ) ≤ -b - rowSum (computeDebtMatrix net).entries p
      have : rowSum (computeDebtMatrix net).entries p ≤ -b := hle
      linarith)]
    have hfinal : -b - rowSum (computeDebtMatrix net).entries p ≤
        max (totalAmt (debtorsSorted net) - totalAmt (creditorsSorted net)) 0 +
          (((debtorsSorted net).length : ℚ) +
            ((creditorsSorted net).length : ℚ)) * eps := hbd
    rw [hcast] at hfinal
    rw [hlenQ, add_mul, add_mul]
    linarith
  · intro p b hb hgt
    have hmem := mem_creditorsSorted hb hgt
    obtain ⟨hle, hbd⟩ := settle_col_bound
      ((debtorsSorted net).length + (creditorsSorted net).length)
      (debtorsSorted net) (creditorsSorted net) (le_refl _)
      (creditorsSorted_amounts net) (creditorsSorted_ids_nodup net hnd)
      p b hmem
    rw [abs_sub_comm, abs_of_nonneg (by
      show (0:ℚ) ≤ b - colSum (computeDebtMatrix net).entries p
      have : colSum (computeDebtMatrix net).entries p ≤ b := hle
      linarith)]
    have hfinal : b - colSum (computeDebtMatrix net).entries p ≤
        max (totalAmt (creditorsSorted net) - totalAmt (debtorsSorted net)) 0 +
          (((debtorsSorted net).length : ℚ) +
            ((creditorsSorted net).length : ℚ)) * eps := hbd
    rw [hcast] at hfinal
    rw [hlenQ, add_mul, add_mul]
    linarith

/-! ## Witnesses: the hypothesised theorems applied at concrete inputs -/

/-- A concrete ledger reachable by valid appends: two participants, one
expense with exactly-summing shares, one transfer. -/
def builtTrip : Trip :=
  { id := "t", name := "n", location := "l",
    start_date := none, end_date := none,
    participants := [⟨"A", "Alice"⟩, ⟨"B", "Bob"⟩],
    expenses := [{ id := "e1", payer_id := "A", amount := 5,
                   description := "d", date := none,
                   shares := [⟨"A", 2⟩, ⟨"B", 3⟩] }],
    transfers := [⟨"t1", "A", "B", 1, none⟩] }

theorem builtTrip_built : Built builtTrip := by
  have h0 := Built.start ("t") "n" "l" none none
  have h1 := Built.addParticipant (⟨"A", "Alice"⟩ : Participant) h0 (by simp)
  have h2 := Built.addParticipant (⟨"B", "Bob"⟩ : Participant) h1 (by simp)
  have h3 := Built.addExpense
    ({ id := "e1", payer_id := "A", amount := 5, description := "d",
       date := none, shares := [⟨"A", 2⟩, ⟨"B", 3⟩] } : Expense)
    h2 (by norm_num) (by simp) (by simp) (by norm_num)
  have h4 := Built.addTransfer (⟨"t1", "A", "B", 1, none⟩ : Transfer)
    h3 (by norm_num) (by simp) (by simp) (by simp)
  exact h4

theorem c1_conservation_witness :
    sumVals (computeNetBalances builtTrip) = 0 ∧
    |sumVals (computeNetBalances builtTrip)| ≤ eps :=
  c1_conservation builtTrip builtTrip_built

theorem c3_amended_matrix_sums_witness :
    ("b" ∈ (computeDebtMatrix [("a", 5), ("b", -5)]).rows ∧
      |rowSum (computeDebtMatrix [("a", 5), ("b", -5)]).entries ("b") -
        -(-5 : ℚ)| ≤ (([("a", (5:ℚ)), ("b", -5)].length : ℚ)) * eps) ∧
    |colSum (computeDebtMatrix [("a", 5), ("b", -5)]).entries ("a") - (5:ℚ)| ≤
      (([("a", (5:ℚ)), ("b", -5)].length : ℚ)) * eps :=
  ⟨(c3_amended_matrix_sums [("a", 5), ("b", -5)] (by norm_num) (by simp)).1
      ("b") (-5) (by simp) (by norm_num [eps]),
   (c3_amended_matrix_sums [("a", 5), ("b", -5)] (by norm_num) (by simp)).2
      ("a") 5 (by simp) (by norm_num [eps])⟩

theorem c4_amended_skips_dangling_witness :
    keysOf (computeNetBalances danglingTrip) =
      keysOf (initNet danglingTrip.participants) ∧
    getBal (computeNetBalances danglingTrip) "A" =
      (danglingTrip.expenses.map fun e =>
        (if e.payer_id = "A" then e.amount else 0) -
          ((e.shares.filter fun s =>
            s.participant_id = "A").map (·.amount)).sum).sum
      + (danglingTrip.transfers.map fun t =>
          (if t.from_id = "A" then t.amount else 0) -
            (if t.to_id = "A" then t.amount else 0)).sum :=
  c4_amended_skips_dangling danglingTrip ("A")
    (by simp [keysOf, initNet, dedupFirst, danglingTrip])

/-- A concrete trip with no explicit start date, an explicit end date and
three dated records, for the date-derivation witness. -/
def datesTrip : Trip :=
  { id := "t", name := "n", location := "l",
    start_date := none, end_date := some ("2024-12-31"),
    participants := [],
    expenses := [{ id := "e1", payer_id := "A", amount := 1,
                   description := "d", date := some ("2024-03-05"),
                   shares := [] },
                 { id := "e2", payer_id := "A", amount := 1,
                   description := "d", date := some ("2024-01-02"),
                   shares := [] }],
    transfers := [⟨"t1", "A", "B", 1, some ("2024-06-07")⟩] }

theorem c7_derive_trip_dates_witness :
    gatherDates datesTrip = nonNullDates datesTrip ∧
    ((datesTrip.start_date ≠ none →
       (deriveTripDates datesTrip).1 = datesTrip.start_date) ∧
     (datesTrip.start_date = none → gatherDates datesTrip = [] →
       (deriveTripDates datesTrip).1 = none) ∧
     (datesTrip.start_date = none → gatherDates datesTrip ≠ [] →
       ∃ m, (deriveTripDates datesTrip).1 = some m ∧
         m ∈ gatherDates datesTrip ∧ ∀ d ∈ gatherDates datesTrip, m ≤ d)) ∧
    ((datesTrip.end_date ≠ none →
       (deriveTripDates datesTrip).2 = datesTrip.end_date) ∧
     (datesTrip.end_date = none → gatherDates datesTrip = [] →
       (deriveTripDates datesTrip).2 = none) ∧
     (datesTrip.end_date = none → gatherDates datesTrip ≠ [] →
       ∃ m, (deriveTripDates datesTrip).2 = some m ∧
         m ∈ gatherDates datesTrip ∧ ∀ d ∈ gatherDates datesTrip, d ≤ m)) :=
  c7_derive_trip_dates datesTrip (by simp [datesTrip]) (by simp [datesTrip])
    (by intro e he; simp [datesTrip] at he
        rcases he with rfl | rfl <;> simp)
    (by intro t ht; simp [datesTrip] at ht
        subst ht; simp)

theorem c8_amended_first_violation_witness :
    allocate 100 ["A"] [("A", 100)] =
      match [("A", (100:ℚ))].find? fun e => decide (e.1 ∉ ["A"] ∨ e.2 < 0) with
      | some e => .error (if e.1 ∈ ["A"] then AllocError.negativeShare
                          else AllocError.unknownParticipant)
      | none =>
        if |([("A", (100:ℚ))].map (·.2)).sum - 100| > 1/100 then
          .error AllocError.shareSumMismatch
        else .ok ([("A", (100:ℚ))].map fun e =>
          { participant_id := e.1, amount := e.2 }) :=
  c8_amended_first_violation 100 ["A"] [("A", 100)] (by norm_num) (by simp)
    (by simp)

theorem c10_entries_positive_distinct_witness :
    ((0:ℚ) < 5 ∧ eps ≤ (5:ℚ)) ∧ ("b" : String) ≠ "a" :=
  c10_entries_positive_distinct [("a", 5), ("b", -5)] (by simp)
    ("b", "a", 5)
    (by
      have hE : (computeDebtMatrix [("a", (5:ℚ)), ("b", -5)]).entries =
          [("b", "a", 5)] := by
        norm_num +decide [computeDebtMatrix, debtorsSorted, creditorsSorted,
          sortDesc, debtorsOf, creditorsOf, List.insertionSort,
          List.orderedInsert, settleLoop, eps, min_def]
      rw [hE]
      simp)

end TripSplit
